import Mathlib

/-!
# Verification of the FSE (Finite State Entropy) weight compressor

Shallow embedding of `FSEEncoder` (`tools/converter/quantizer/fse_encoder.cc`):
frequency normalization (`NormalizeFrequency`, `GetMaxIndex`), encoding-state
table construction (`FSECreateStatesForEncoding`), the encode loop
(`FSEEncode`, `FSEEncodeSymbolGetNewState`) and the binary serializer
(`SerializingToBuffer`), together with theorems settling the frozen claims
about them.

Machine integers are modelled as `Nat`/`Int` with explicit reductions
`% 2^w` exactly where the C code stores into a fixed-width integer.
The `FSEBitStream` class, the `FSEQuant` struct and the constants
`MAX_SYMS` / `MAX_TABLE_LOG` are declared in headers that are not part of
the analysed sources; they are modelled from the specification text and
the two constants are kept as explicit parameters.
-/

set_option maxRecDepth 40000

namespace FSEVerify

/-- Halving recursion computing the bit length, structurally recursive on an
iteration bound (`x` halvings always suffice) so that it is
kernel-computable. -/
def countBitsGo : ℕ → ℕ → ℕ
  | 0, _ => 0
  | _ + 1, 0 => 0
  | fuel + 1, x + 1 => countBitsGo fuel ((x + 1) / 2) + 1

/-- Modelled from the spec: `FSEBitStream::CountBits` is not in the analysed
sources; §4.1 states "CountBits(x) returns the bit-length of an unsigned
integer (0 → 0)", i.e. `Nat.size` (proved below). -/
def countBits (x : ℕ) : ℕ := countBitsGo x x

/-- Modelled from the spec: the bit-stream writer state (§3, §4.1): an
append-only sequence of committed 64-bit chunks, plus a partially filled
current chunk and its bit count. -/
structure FSEBitStream where
  chunks : List ℕ
  currChunk : ℕ
  currBitCount : ℕ
deriving DecidableEq, Repr

/-- Modelled from the spec: `FSEBitStream::Push(value, bit_count)` appends the
low `bit_count` bits of `value` MSB-first into the current chunk; when the
64-bit chunk overflows it is committed and the spilled low bits start a new
chunk. The pushed value is an integer whose low bits are taken two's
complement (`Int.emod` by `2 ^ bitCount` is non-negative). -/
def bsPush (bs : FSEBitStream) (value : ℤ) (bitCount : ℕ) : FSEBitStream :=
  let v : ℕ := (value % ((2 : ℤ) ^ bitCount)).toNat
  if bs.currBitCount + bitCount ≤ 64 then
    { chunks := bs.chunks
      currChunk := bs.currChunk * 2 ^ bitCount + v
      currBitCount := bs.currBitCount + bitCount }
  else
    let hi := 64 - bs.currBitCount
    let lo := bitCount - hi
    { chunks := bs.chunks ++ [bs.currChunk * 2 ^ hi + v / 2 ^ lo]
      currChunk := v % 2 ^ lo
      currBitCount := lo }

/-- Modelled from the spec: `FSEBitStream::Empty()` "resets content without
deallocating". -/
def bsEmpty (_ : FSEBitStream) : FSEBitStream := ⟨[], 0, 0⟩

/-- Modelled from the spec: `FSEBitStream::Flush()` "commits any partially
filled final chunk"; the getters still expose the current partial chunk and
bit count afterwards (§6's layout serializes both). -/
def bsFlush (bs : FSEBitStream) : FSEBitStream :=
  if bs.currBitCount = 0 then bs
  else { bs with chunks := bs.chunks ++ [bs.currChunk] }

/-- Modelled from the spec: `FSEBitStream::Create(capacity_bits)` fails when
the capacity is zero (allocation failure is not modelled); it yields a fresh
empty stream. -/
def bsCreate (capacityBits : ℕ) : Option FSEBitStream :=
  if capacityBits = 0 then none else some ⟨[], 0, 0⟩

/-- Modelled from the spec: `FSEBitStream::GetCurrChunkIndex` is the index of
the last committed chunk (so `-1` for a stream with no committed chunk): the
serializer emits `GetCurrChunkIndex() + 1` chunks, i.e. all of them. -/
def getCurrChunkIndex (bs : FSEBitStream) : ℤ := (bs.chunks.length : ℤ) - 1

/-! ## Spread-table construction (`FSECreateStatesForEncoding`, first loop)

`kFseTableExtendSize = 3`; the stride is
`step = (tablesize >> 1) + (tablesize >> 3) + 3` and positions are reduced
with `& tablemask` where `tablemask = tablesize - 1`, `tablesize = 1 << table_log`. -/

/-- `step = ((tablesize >> 1) + (tablesize >> kFseTableExtendSize) + kFseTableExtendSize)`. -/
def spreadStep (L : ℕ) : ℕ := (2 ^ L >>> 1) + (2 ^ L >>> 3) + 3

/-- One stride-and-mask update: `pos = (pos + step) & tablemask`. -/
def maskAdvance (L pos : ℕ) : ℕ := (pos + spreadStep L) &&& (2 ^ L - 1)

/-- The body of the inner re-application loop
`while (pos > tablemask) pos = (pos + step) & tablemask;`, with an explicit
iteration bound so that the definition is structurally recursive (hence
kernel-computable); the loop runs at most once, since one masked step lands at
or below the mask, so the bound is never exhausted. -/
def whileAdjustGo (L : ℕ) : ℕ → ℕ → ℕ
  | 0, pos => pos
  | fuel + 1, pos =>
      if 2 ^ L - 1 < pos then whileAdjustGo L fuel (maskAdvance L pos) else pos

/-- The inner re-application loop; `pos + 1` iterations always suffice (the
guard can hold at most once). -/
def whileAdjust (L : ℕ) (pos : ℕ) : ℕ := whileAdjustGo L (pos + 1) pos

/-- Inner placement loop: writes `(pos, sym)` for `frequency[sym]` occurrences,
advancing `pos` by the stride each time (returns the writes in order and the
final position). -/
def spreadInner (L sym : ℕ) : ℕ → ℕ → List (ℕ × ℕ) × ℕ
  | 0, pos => ([], pos)
  | f + 1, pos =>
      let next := whileAdjust L (maskAdvance L pos)
      let rest := spreadInner L sym f next
      ((pos, sym) :: rest.1, rest.2)

/-- Outer loop over symbols in ascending order. -/
def spreadOuterGo (L : ℕ) : List ℕ → ℕ → ℕ → List (ℕ × ℕ) × ℕ
  | [], _, pos => ([], pos)
  | f :: rest, sym, pos =>
      let w1 := spreadInner L sym f pos
      let w2 := spreadOuterGo L rest (sym + 1) w1.2
      (w1.1 ++ w2.1, w2.2)

/-- All `symbol_table` writes of the spread loop (position, symbol) in program
order, together with the final position `pos` (checked against 0 by the code). -/
def spreadWrites (freq : List ℕ) (L : ℕ) : List (ℕ × ℕ) × ℕ :=
  spreadOuterGo L freq 0 0

/-! ## Frequency normalization (`GetMaxIndex`, `NormalizeFrequency`)

The C loop compares `uint32_t` entries against a running `float` maximum
initialised to `-INFINITY`.  All frequencies reaching this code are far below
`2^24`, where conversion to `float` is exact, so the comparisons are modelled
on exact integers; `-INFINITY` is modelled by `-1`, which like `-INFINITY` is
strictly below every unsigned entry, so the first iteration always updates. -/

/-- The scan of `GetMaxIndex`: `if (arr[i] > max) { max = arr[i]; index = i; }`. -/
def getMaxIdxGo : List ℕ → ℕ → ℤ → ℤ → ℤ
  | [], _, _, idx => idx
  | x :: rest, i, mx, idx =>
      if mx < (x : ℤ) then getMaxIdxGo rest (i + 1) (x : ℤ) (i : ℤ)
      else getMaxIdxGo rest (i + 1) mx idx

/-- `GetMaxIndex(arr, arr_count)`: index of the first maximum, `-1` when empty. -/
def getMaxIndex (arr : List ℕ) : ℤ := getMaxIdxGo arr 0 (-1) (-1)

/-- The rescaling of one entry:
`std::max(1, static_cast<int>(floorf(kUpRoundOffSet + rat * freq)))` with
`rat = new_table_size / curr_table_size` and `kUpRoundOffSet = 0.5`.
The `float` expression is modelled in exact arithmetic (`float32` rounding is
not modelled): for `curr > 0`,
`floor(1/2 + (newSize/curr)·f) = (curr + 2·newSize·f) / (2·curr)`
as natural-number division. -/
def rescaleEntry (newSize curr f : ℕ) : ℕ :=
  max 1 ((curr + 2 * newSize * f) / (2 * curr))

/-- The shrink loop: `while (updated_table_size > new_table_size)` decrement the
frequency at `GetMaxIndex`, erroring when the index is negative or exceeds
`MAX_SYMS` (kept as the parameter `maxSyms`).  Returns the final frequencies
together with the final `updated_table_size` counter; the loop recurses
structurally on the decremented counter.  The frequency decrement cannot
wrap: a list whose maximum is 0 sums to 0, so the loop guard is false. -/
def shrinkLoop (maxSyms target : ℕ) (freq : List ℕ) : ℕ → Option (List ℕ × ℕ)
  | 0 => some (freq, 0)
  | u + 1 =>
      if target < u + 1 then
        let mi := getMaxIndex freq
        if mi < 0 ∨ (maxSyms : ℤ) < mi then none
        else shrinkLoop maxSyms target
          (freq.set mi.toNat (freq.getD mi.toNat 0 - 1)) u
      else some (freq, u + 1)

/-- The grow step: if the counter is still below target, add the whole deficit
to the frequency at `GetMaxIndex` in one assignment, erroring when the index is
negative or `≥ MAX_SYMS`. -/
def growStep (maxSyms target updated : ℕ) (freq : List ℕ) : Option (List ℕ) :=
  if updated < target then
    let mi := getMaxIndex freq
    if mi < 0 ∨ (maxSyms : ℤ) ≤ mi then none
    else some (freq.set mi.toNat (freq.getD mi.toNat 0 + (target - updated)))
  else some freq

/-- `FSEEncoder::NormalizeFrequency`.  The alphabet size `q->size` is the
length of the frequency list; `MAX_TABLE_LOG` and `MAX_SYMS` (declared in a
header outside the analysed sources) are parameters.  Returns the normalized
frequencies and the chosen `table_log`. -/
def normalizeFrequency (maxTableLog maxSyms : ℕ) (freq : List ℕ) :
    Option (List ℕ × ℕ) :=
  let tableLog := min maxTableLog (countBits freq.length + 3)
  let newSize := 2 ^ tableLog
  let curr := freq.sum
  if curr = 0 then none
  else
    let rescaled := freq.map (rescaleEntry newSize curr)
    match shrinkLoop maxSyms newSize rescaled rescaled.sum with
    | none => none
    | some (f2, updated) =>
        match growStep maxSyms newSize updated f2 with
        | none => none
        | some f3 => some (f3, tableLog)

/-! ## Encoding-state tables (`FSECreateStatesForEncoding`, rest) -/

/-- `int16_t` store: reduce an integer into `[-2^15, 2^15)` two's complement. -/
def wrap16 (z : ℤ) : ℤ := (z + 2 ^ 15) % 2 ^ 16 - 2 ^ 15

/-- The cumulative-frequency vector `cfreqs` (`frequency_count + 2` slots,
zero-initialised): `cfreqs[0] = 0`, `cfreqs[i] = cfreqs[i-1] + frequency[i-1]`
for `1 ≤ i ≤ size`, and `cfreqs[size+1] = cfreqs[size] + 1`. -/
def cfreqsBuild (freq : List ℕ) : List ℕ :=
  let c0 := List.replicate (freq.length + 2) 0
  let c1 := (List.range freq.length).foldl
    (fun c i => c.set (i + 1) (c.getD i 0 + freq.getD i 0)) c0
  c1.set (freq.length + 1) (c1.getD freq.length 0 + 1)

/-- The coding-table loop: for each slot `i` of the spread table in order,
`coding_table[cfreqs[sym]] = tablesize + i` (a `uint16_t` store) and
`cfreqs[sym] += 1`. -/
def codingBuild (L : ℕ) (symTab : List ℕ) (cf0 : List ℕ) : List ℕ :=
  ((List.range (2 ^ L)).foldl
    (fun (st : List ℕ × List ℕ) i =>
      let sym := symTab.getD i 0
      let idx := st.1.getD sym 0
      (st.1.set sym (idx + 1), st.2.set idx ((2 ^ L + i) % 2 ^ 16)))
    (cf0, List.replicate (2 ^ L) 0)).2

/-- The per-symbol delta loop.  For `frequency[sym] >= kFrenqTableExtendSize`
(`= 2`): `max_bits_out = table_log - CountBits(frequency-1)` (non-negative for
normalized tables), `min_state_plus = frequency << max_bits_out`,
`delta_bit_count[sym] = (size_t(max_bits_out) << 16) - min_state_plus` (a
`size_t` computation stored into `uint32_t`, hence `% 2^64 % 2^32`), and
`delta_state[sym] = total - frequency` stored into `int16_t`; otherwise the
fixed forms with `total += 1`. -/
def deltaBuild (L : ℕ) : List ℕ → ℕ → ℤ → List ℕ → List ℤ → List ℕ × List ℤ
  | [], _, _, dbc, dst => (dbc, dst)
  | f :: rest, sym, total, dbc, dst =>
      if 2 ≤ f then
        let maxBits : ℕ := L - countBits (f - 1)
        let dbcVal : ℕ :=
          ((((maxBits : ℤ) * 2 ^ 16 - (f : ℤ) * 2 ^ maxBits) % 2 ^ 64) % 2 ^ 32).toNat
        deltaBuild L rest (sym + 1) (total + (f : ℤ))
          (dbc.set sym dbcVal) (dst.set sym (wrap16 (total - (f : ℤ))))
      else
        let dbcVal : ℕ := (((L : ℤ) * 2 ^ 16 - 2 ^ L) % 2 ^ 32).toNat
        deltaBuild L rest (sym + 1) (total + 1)
          (dbc.set sym dbcVal) (dst.set sym (wrap16 (total - 1)))

/-- The four tables produced by `FSECreateStatesForEncoding`. -/
structure FSETables where
  symbolTable : List ℕ
  codingTable : List ℕ
  deltaBitCount : List ℕ
  deltaState : List ℤ
deriving DecidableEq, Repr

/-- `FSEEncoder::FSECreateStatesForEncoding`: spread placement (with the
`pos != 0 → RET_ERROR` check), cumulative frequencies, coding table, deltas.
The output arrays are the zero-initialised `std::vector`s of `FSEEncode`,
written through `List.set` (`uint16_t` stores reduce `% 2^16`). -/
def fseCreateStates (freq : List ℕ) (L : ℕ) : Option FSETables :=
  let sw := spreadWrites freq L
  if sw.2 ≠ 0 then none
  else
    let symTab := sw.1.foldl (fun st w => st.set w.1 (w.2 % 2 ^ 16))
      (List.replicate (2 ^ L) 0)
    let ct := codingBuild L symTab (cfreqsBuild freq)
    let d := deltaBuild L freq 0 0
      (List.replicate freq.length 0) (List.replicate freq.length 0)
    some ⟨symTab, ct, d.1, d.2⟩

/-! ## Encode loop (`FSEEncodeSymbolGetNewState`, `FSEEncode`) -/

/-- One state transition: `bits_out = (state + delta_bit_count[sym]) >> 16`
(`uint32` sum, truncated into the `uint8_t` variable), push the low `bits_out`
bits of `state`, and return `coding_table[(state >> bits_out) + delta_state[sym]]`
(an `int` index into the table; a negative index would be out-of-bounds in C
and is clamped through `Int.toNat` here). -/
def fseEncodeSymbolGetNewState (tabs : FSETables) (bs : FSEBitStream)
    (sym state : ℕ) : FSEBitStream × ℕ :=
  let bitsOut : ℕ := (((state + tabs.deltaBitCount.getD sym 0) % 2 ^ 32) >>> 16) % 2 ^ 8
  let bsNew := bsPush bs (state : ℤ) bitsOut
  (bsNew, tabs.codingTable.getD (((state >>> bitsOut : ℕ) : ℤ) + tabs.deltaState.getD sym 0).toNat 0)

/-- `FSEEncoder::FSEEncode`: build tables, prime the state by encoding the
first symbol from `state = table_size` (a `uint16_t`, hence `% 2^16`), discard
the primed bits with `Empty()`, encode the whole sequence, then push
`state - table_size` with exactly `table_log` bits. -/
def fseEncode (bs : FSEBitStream) (data : List ℕ) (freq : List ℕ) (L : ℕ) :
    Option FSEBitStream :=
  match fseCreateStates freq L with
  | none => none
  | some tabs =>
      let state0 : ℕ := 2 ^ L % 2 ^ 16
      let primed := fseEncodeSymbolGetNewState tabs bs (data.headD 0) state0
      let bs1 := bsEmpty primed.1
      let enc := data.foldl
        (fun (acc : FSEBitStream × ℕ) sym => fseEncodeSymbolGetNewState tabs acc.1 sym acc.2)
        (bs1, primed.2)
      some (bsPush enc.1 ((enc.2 : ℤ) - 2 ^ L) L)

/-! ## Serializer (`SerializingToBuffer`)

The output buffer is modelled as the list of write events performed on
`out8`, each event being `(offset, width-in-bytes, value)`; the result also
carries `some out_size` on success and `none` on the error return (in which
case `*out_size` is never written).  Events performed before an error return
are kept, since the code stores before it checks in one place. -/

/-- A single store into the output buffer: `(byte offset, width, value)`. -/
abbrev SerEvent := ℕ × ℕ × ℕ

/-- Modelled from the spec: the `FSEQuant` struct (declared in the missing
header); the serializer uses its alphabet size `size`, the frequency table and
the centroid table (centroids kept as raw `float32` bit patterns, stored
verbatim by the serializer's identity `float` cast). -/
structure FSEQuant where
  size : ℕ
  frequency : List ℕ
  centroids : List ℕ
deriving DecidableEq, Repr

/-- Sequencing of serializer phases: keep the events; stop at the first error. -/
def serSeq (p : List SerEvent × Option ℕ) (k : ℕ → List SerEvent × Option ℕ) :
    List SerEvent × Option ℕ :=
  match p with
  | (evs, none) => (evs, none)
  | (evs, some off) =>
      let q := k off
      (evs ++ q.1, q.2)

/-- One guarded store: `if (offset + w > max_size) return RET_ERROR;` then the
store and `offset += w`. -/
def serOne (maxSize w v off : ℕ) : List SerEvent × Option ℕ :=
  if maxSize < off + w then ([], none) else ([(off, w, v)], some (off + w))

/-- A guarded store loop over a list of values of uniform width (the frequency,
centroid and chunk loops). -/
def serEntries (maxSize w : ℕ) : List ℕ → ℕ → List SerEvent × Option ℕ
  | [], off => ([], some off)
  | v :: rest, off =>
      if maxSize < off + w then ([], none)
      else
        let r := serEntries maxSize w rest (off + w)
        ((off, w, v) :: r.1, r.2)

/-- The alignment loop `while (offset % kAlignSize != 0)` (`kAlignSize = 8`):
each iteration checks the budget and stores a `uint16` zero, structurally
recursive on an explicit iteration bound. -/
def serPadGo (maxSize : ℕ) : ℕ → ℕ → List SerEvent × Option ℕ
  | 0, off => ([], none)
  | fuel + 1, off =>
      if off % 8 = 0 then ([], some off)
      else if maxSize < off + 2 then ([], none)
      else
        let r := serPadGo maxSize fuel (off + 2)
        ((off, 2, 0) :: r.1, r.2)

/-- The alignment loop with its bound: every iteration consumes at least two
bytes of the remaining budget, so `maxSize + 2 - off` iterations always
suffice before the loop either reaches alignment or takes the error return. -/
def serPad (maxSize off : ℕ) : List SerEvent × Option ℕ :=
  serPadGo maxSize (maxSize + 2 - off) off

/-- `FSEEncoder::SerializingToBuffer`.  Field order and checks follow the
source exactly; note the first store (the `uint16` symbol count at offset 0)
happens before any budget check.  `chunksc = GetCurrChunkIndex() + sizeof(uint16_t)`. -/
def serializingToBuffer (bs : FSEBitStream) (q : FSEQuant) (L : ℕ)
    (maxSize : ℕ) : List SerEvent × Option ℕ :=
  serSeq ([(0, 2, q.size % 2 ^ 16)], some 2) fun o1 =>
  serSeq (serOne maxSize 2 (L % 2 ^ 16) o1) fun o2 =>
  serSeq (serOne maxSize 4 ((getCurrChunkIndex bs + 2).toNat % 2 ^ 32) o2) fun o3 =>
  serSeq (serEntries maxSize 4
      ((List.range q.size).map fun j => q.frequency.getD j 0 % 2 ^ 32) o3) fun o4 =>
  serSeq (serPad maxSize o4) fun o5 =>
  serSeq (serEntries maxSize 4
      ((List.range q.size).map fun j => q.centroids.getD j 0) o5) fun o6 =>
  serSeq (serPad maxSize o6) fun o7 =>
  serSeq (serEntries maxSize 8
      ((List.range bs.chunks.length).map fun j => bs.chunks.getD j 0 % 2 ^ 64) o7) fun o8 =>
  serSeq (serOne maxSize 8 (bs.currChunk % 2 ^ 64) o8) fun o9 =>
  serSeq (serOne maxSize 1 (bs.currBitCount % 2 ^ 8) o9) fun o10 =>
  ([], if maxSize < o10 then none else some o10)

/-- The exact number of bytes `SerializingToBuffer` needs for a given input:
header (8) + `4·size` frequencies + padding to 8 + `4·size` centroids +
padding to 8 + 8 per committed chunk + 8 (current chunk) + 1 (bit count). -/
def requiredSize (bs : FSEBitStream) (q : FSEQuant) : ℕ :=
  let a := 8 + 4 * q.size
  let b := a + (8 - a % 8) % 8
  let c := b + 4 * q.size
  let d := c + (8 - c % 8) % 8
  d + 8 * bs.chunks.length + 8 + 1

/-- The serialized layout as stated by the specification (§6): symbol count,
table-log, chunk-index+2, frequencies, zero padding to an 8-byte boundary,
centroids, zero padding, committed chunks, current partial chunk, current bit
count, at strictly increasing offsets.  This definition follows the spec's
words and is compared against `serializingToBuffer`. -/
def specSerializedLayout (bs : FSEBitStream) (q : FSEQuant) (L : ℕ) :
    List SerEvent :=
  let freqEvs := (List.range q.size).map fun j =>
    ((8 + 4 * j : ℕ), (4 : ℕ), q.frequency.getD j 0 % 2 ^ 32)
  let o1 := 8 + 4 * q.size
  let p1 := (List.range ((8 - o1 % 8) % 8 / 2)).map fun k =>
    ((o1 + 2 * k : ℕ), (2 : ℕ), (0 : ℕ))
  let o2 := o1 + (8 - o1 % 8) % 8
  let centEvs := (List.range q.size).map fun j =>
    ((o2 + 4 * j : ℕ), (4 : ℕ), q.centroids.getD j 0)
  let o3 := o2 + 4 * q.size
  let p2 := (List.range ((8 - o3 % 8) % 8 / 2)).map fun k =>
    ((o3 + 2 * k : ℕ), (2 : ℕ), (0 : ℕ))
  let o4 := o3 + (8 - o3 % 8) % 8
  let chunkEvs := (List.range bs.chunks.length).map fun j =>
    ((o4 + 8 * j : ℕ), (8 : ℕ), bs.chunks.getD j 0 % 2 ^ 64)
  let o5 := o4 + 8 * bs.chunks.length
  [(0, 2, q.size % 2 ^ 16), (2, 2, L % 2 ^ 16),
   (4, 4, (bs.chunks.length + 1) % 2 ^ 32)] ++
  freqEvs ++ p1 ++ centEvs ++ p2 ++ chunkEvs ++
  [(o5, 8, bs.currChunk % 2 ^ 64), (o5 + 8, 1, bs.currBitCount % 2 ^ 8)]

/-- The compression pipeline of `FSEEncoder::Compress` after `SqueezeQuant`:
normalize the histogram, create a bit stream with capacity
`k16Bit * symbol_table_count`, FSE-encode the symbol sequence, `Flush()`, and
serialize into a budget of `maxSize` bytes.  Returns the write events and the
output size on success. -/
def compressCore (maxTableLog maxSyms : ℕ) (syms freq cents : List ℕ)
    (maxSize : ℕ) : Option (List SerEvent × ℕ) :=
  match normalizeFrequency maxTableLog maxSyms freq with
  | none => none
  | some (f2, L) =>
      match bsCreate (16 * syms.length) with
      | none => none
      | some bs0 =>
          match fseEncode bs0 syms f2 L with
          | none => none
          | some bs1 =>
              match serializingToBuffer (bsFlush bs1) ⟨freq.length, f2, cents⟩ L maxSize with
              | (evs, some outSize) => some (evs, outSize)
              | (_, none) => none

/-- Wrapper used to state theorems about the tail of `compressCore`. -/
def serResult (p : List SerEvent × Option ℕ) : Option (List SerEvent × ℕ) :=
  match p with
  | (evs, some n) => some (evs, n)
  | (_, none) => none

/-- Following the spec's words: "the first index holding the maximum frequency
(scanned in ascending symbol order)" — the first occurrence of the maximum
value.  Compared against the source's `GetMaxIndex`. -/
def firstMaxIndex (arr : List ℕ) : ℕ := arr.indexOf (arr.foldr max 0)

/-- Following the spec's words: decrement by 1 the frequency of the first
index holding the maximum. -/
def decFirstMax (l : List ℕ) : List ℕ :=
  l.set (firstMaxIndex l) (l.getD (firstMaxIndex l) 0 - 1)

/-! ## Helper lemmas: spread table -/

theorem maskAdvance_le_mask (L pos : ℕ) : maskAdvance L pos ≤ 2 ^ L - 1 :=
  Nat.and_le_right

theorem whileAdjust_of_le {L pos : ℕ} (h : pos ≤ 2 ^ L - 1) :
    whileAdjust L pos = pos := by
  show whileAdjustGo L (pos + 1) pos = pos
  rw [whileAdjustGo]
  rw [if_neg (not_lt.mpr h)]

theorem shrinkLoop_unfold (maxSyms target : ℕ) (freq : List ℕ) (u : ℕ) :
    shrinkLoop maxSyms target freq u =
      if target < u then
        let mi := getMaxIndex freq
        if mi < 0 ∨ (maxSyms : ℤ) < mi then none
        else shrinkLoop maxSyms target
          (freq.set mi.toNat (freq.getD mi.toNat 0 - 1)) (u - 1)
      else some (freq, u) := by
  cases u with
  | zero => simp [shrinkLoop]
  | succ u =>
      rw [shrinkLoop]
      simp only [Nat.add_sub_cancel]

theorem maskAdvance_eq_mod (L pos : ℕ) :
    maskAdvance L pos = (pos + spreadStep L) % 2 ^ L :=
  Nat.and_pow_two_sub_one_eq_mod _ L

theorem spreadInner_spec (L sym : ℕ) :
    ∀ (f pos : ℕ),
      (spreadInner L sym f pos).1 =
        (List.range f).map (fun i => ((maskAdvance L)^[i] pos, sym)) ∧
      (spreadInner L sym f pos).2 = (maskAdvance L)^[f] pos := by
  intro f
  induction f with
  | zero => intro pos; simp [spreadInner]
  | succ f ih =>
      intro pos
      have hnext : whileAdjust L (maskAdvance L pos) = maskAdvance L pos :=
        whileAdjust_of_le (maskAdvance_le_mask L pos)
      obtain ⟨ih1, ih2⟩ := ih (maskAdvance L pos)
      constructor
      · simp only [spreadInner, hnext, ih1, List.range_succ_eq_map, List.map_cons,
          Function.iterate_zero_apply, List.map_map]
        refine congrArg (List.cons _) ?_
        apply List.map_congr_left
        intro i _
        simp [Function.comp, Function.iterate_succ_apply]
      · simp only [spreadInner, hnext, ih2]
        simp [Function.iterate_succ_apply]

theorem spreadOuterGo_spec (L : ℕ) :
    ∀ (fl : List ℕ) (sym pos : ℕ),
      (spreadOuterGo L fl sym pos).1.map Prod.fst =
        (List.range fl.sum).map (fun k => (maskAdvance L)^[k] pos) ∧
      (spreadOuterGo L fl sym pos).2 = (maskAdvance L)^[fl.sum] pos := by
  intro fl
  induction fl with
  | nil => intro sym pos; simp [spreadOuterGo]
  | cons f rest ih =>
      intro sym pos
      obtain ⟨i1, i2⟩ := spreadInner_spec L sym f pos
      obtain ⟨r1, r2⟩ := ih (sym + 1) ((maskAdvance L)^[f] pos)
      constructor
      · simp only [spreadOuterGo, List.map_append, i2, i1, r1, List.sum_cons,
          List.range_add, List.map_map]
        refine congrArg₂ List.append ?_ ?_
        · apply List.map_congr_left; intro i _; rfl
        · apply List.map_congr_left
          intro k _
          simp only [Function.comp_apply]
          rw [Nat.add_comm f k, Function.iterate_add_apply]
      · simp only [spreadOuterGo, i2, r2, List.sum_cons]
        rw [Nat.add_comm f rest.sum, Function.iterate_add_apply]

theorem maskAdvance_iterate (L : ℕ) :
    ∀ k : ℕ, (maskAdvance L)^[k] 0 = k * spreadStep L % 2 ^ L := by
  intro k
  induction k with
  | zero => simp
  | succ k ih =>
      rw [Function.iterate_succ_apply', ih, maskAdvance_eq_mod,
        Nat.mod_add_mod, Nat.succ_mul]

theorem spreadStep_odd {L : ℕ} (h1 : L ≠ 1) (h3 : L ≠ 3) :
    spreadStep L % 2 = 1 := by
  match L, h1, h3 with
  | 0, _, _ => decide
  | 2, _, _ => decide
  | 1, h1, _ => exact absurd rfl h1
  | 3, _, h3 => exact absurd rfl h3
  | (n + 4), _, _ =>
      have e1 : 2 ^ (n + 4) >>> 1 = 2 ^ (n + 3) := by
        rw [Nat.shiftRight_eq_div_pow, Nat.pow_div (by omega) (by norm_num)]
        congr 1
      have e3 : 2 ^ (n + 4) >>> 3 = 2 ^ (n + 1) := by
        rw [Nat.shiftRight_eq_div_pow, Nat.pow_div (by omega) (by norm_num)]
        congr 1
      have d1 : 2 ^ (n + 3) % 2 = 0 := by
        simp [pow_succ, Nat.mul_mod]
      have d3 : 2 ^ (n + 1) % 2 = 0 := by
        simp [pow_succ, Nat.mul_mod]
      unfold spreadStep
      rw [e1, e3]
      omega

theorem spreadPositions_nodup {L : ℕ} (hodd : spreadStep L % 2 = 1) :
    (((List.range (2 ^ L)).map (fun k => k * spreadStep L % 2 ^ L))).Nodup := by
  have hco : Nat.Coprime (2 ^ L) (spreadStep L) :=
    Nat.Coprime.pow_left L (Nat.coprime_two_left.mpr (Nat.odd_iff.mpr hodd))
  refine (List.nodup_range (2 ^ L)).map_on ?_
  intro a ha b hb hab
  rw [List.mem_range] at ha hb
  have hmod : a * spreadStep L ≡ b * spreadStep L [MOD 2 ^ L] := by
    unfold Nat.ModEq
    simpa using hab
  have := (Nat.ModEq.cancel_right_of_coprime hco hmod)
  unfold Nat.ModEq at this
  rwa [Nat.mod_eq_of_lt ha, Nat.mod_eq_of_lt hb] at this

theorem spreadPositions_count {L : ℕ} (hodd : spreadStep L % 2 = 1) :
    ∀ s < 2 ^ L,
      ((List.range (2 ^ L)).map (fun k => k * spreadStep L % 2 ^ L)).count s = 1 := by
  intro s hs
  set l := (List.range (2 ^ L)).map (fun k => k * spreadStep L % 2 ^ L) with hl
  have hnd : l.Nodup := spreadPositions_nodup hodd
  have hsub : l.toFinset ⊆ Finset.range (2 ^ L) := by
    intro x hx
    rw [List.mem_toFinset, hl, List.mem_map] at hx
    obtain ⟨k, _, hk⟩ := hx
    rw [Finset.mem_range, ← hk]
    exact Nat.mod_lt _ (Nat.pos_pow_of_pos L (by norm_num))
  have hcard : (Finset.range (2 ^ L)).card ≤ l.toFinset.card := by
    rw [List.toFinset_card_of_nodup hnd, Finset.card_range, hl, List.length_map,
      List.length_range]
  have heq : l.toFinset = Finset.range (2 ^ L) :=
    Finset.eq_of_subset_of_card_le hsub hcard
  have hmem : s ∈ l := by
    rw [← List.mem_toFinset, heq, Finset.mem_range]; exact hs
  exact List.count_eq_one_of_mem hnd hmem

/-! ## Helper lemmas: `GetMaxIndex` and the normalizer -/

theorem getD_mem_of_lt (l : List ℕ) (j : ℕ) (h : j < l.length) : l.getD j 0 ∈ l := by
  rw [List.getD_eq_getElem l 0 h]
  exact List.getElem_mem h

theorem getMaxIdxGo_of_all_le :
    ∀ (arr : List ℕ) (i : ℕ) (mx idx : ℤ),
      (∀ x ∈ arr, (x : ℤ) ≤ mx) → getMaxIdxGo arr i mx idx = idx := by
  intro arr
  induction arr with
  | nil => intro i mx idx _; rfl
  | cons x rest ih =>
      intro i mx idx hle
      have hx : (x : ℤ) ≤ mx := hle x (List.mem_cons_self x rest)
      simp only [getMaxIdxGo, if_neg (not_lt.mpr hx)]
      exact ih (i + 1) mx idx fun y hy => hle y (List.mem_cons_of_mem x hy)

theorem getMaxIdxGo_spec :
    ∀ (arr : List ℕ) (i : ℕ) (mx idx : ℤ),
      (∃ x ∈ arr, mx < (x : ℤ)) →
      ∃ k : ℕ, k < arr.length ∧
        getMaxIdxGo arr i mx idx = ((i + k : ℕ) : ℤ) ∧
        mx < (arr.getD k 0 : ℤ) ∧
        (∀ j < arr.length, arr.getD j 0 ≤ arr.getD k 0) ∧
        (∀ j < k, (arr.getD j 0 : ℤ) ≤ mx ∨ arr.getD j 0 < arr.getD k 0) := by
  intro arr
  induction arr with
  | nil => intro i mx idx h; simp at h
  | cons x rest ih =>
      intro i mx idx hex
      by_cases hx : mx < (x : ℤ)
      · simp only [getMaxIdxGo, if_pos hx]
        by_cases hrest : ∃ y ∈ rest, (x : ℤ) < (y : ℤ)
        · obtain ⟨k, hk, hval, hgt, hdom, hpre⟩ := ih (i + 1) (x : ℤ) (i : ℤ) hrest
          refine ⟨k + 1, by simpa using Nat.succ_lt_succ hk, ?_, ?_, ?_, ?_⟩
          · rw [hval]; push_cast; ring_nf
          · simpa using lt_trans hx hgt
          · intro j hj
            match j with
            | 0 =>
                simp only [List.getD_cons_zero, List.getD_cons_succ]
                exact_mod_cast le_of_lt hgt
            | j + 1 =>
                simp only [List.getD_cons_succ]
                exact hdom j (by simpa using hj)
          · intro j hj
            match j with
            | 0 =>
                right
                simp only [List.getD_cons_zero, List.getD_cons_succ]
                exact_mod_cast hgt
            | j + 1 =>
                simp only [List.getD_cons_succ]
                rcases hpre j (by omega) with hle | hlt
                · right
                  have : (rest.getD j 0 : ℤ) < rest.getD k 0 := lt_of_le_of_lt hle hgt
                  exact_mod_cast this
                · right; exact hlt
        · push_neg at hrest
          have := getMaxIdxGo_of_all_le rest (i + 1) (x : ℤ) (i : ℤ) hrest
          refine ⟨0, by simp, by simpa using this, by simpa using hx, ?_, by omega⟩
          intro j hj
          match j with
          | 0 => simp
          | j + 1 =>
              simp only [List.getD_cons_succ, List.getD_cons_zero]
              exact_mod_cast hrest _ (getD_mem_of_lt rest j (by simpa using hj))
      · simp only [getMaxIdxGo, if_neg hx]
        have hex2 : ∃ y ∈ rest, mx < (y : ℤ) := by
          obtain ⟨y, hy, hygt⟩ := hex
          rcases List.mem_cons.mp hy with rfl | hyr
          · exact absurd hygt hx
          · exact ⟨y, hyr, hygt⟩
        obtain ⟨k, hk, hval, hgt, hdom, hpre⟩ := ih (i + 1) mx idx hex2
        refine ⟨k + 1, by simpa using Nat.succ_lt_succ hk, ?_, by simpa using hgt, ?_, ?_⟩
        · rw [hval]; push_cast; ring_nf
        · intro j hj
          match j with
          | 0 =>
              simp only [List.getD_cons_zero, List.getD_cons_succ]
              have : (x : ℤ) ≤ rest.getD k 0 := le_of_lt (lt_of_le_of_lt (not_lt.mp hx) hgt)
              exact_mod_cast this
          | j + 1 =>
              simp only [List.getD_cons_succ]
              exact hdom j (by simpa using hj)
        · intro j hj
          match j with
          | 0 => left; simpa using not_lt.mp hx
          | j + 1 =>
              simp only [List.getD_cons_succ]
              exact hpre j (by omega)

theorem getMaxIndex_spec (arr : List ℕ) (h : arr ≠ []) :
    ∃ k : ℕ, getMaxIndex arr = (k : ℤ) ∧ k < arr.length ∧
      (∀ j < arr.length, arr.getD j 0 ≤ arr.getD k 0) ∧
      (∀ j < k, arr.getD j 0 < arr.getD k 0) := by
  obtain ⟨x, rest, rfl⟩ := List.exists_cons_of_ne_nil h
  have hex : ∃ y ∈ x :: rest, (-1 : ℤ) < (y : ℤ) := by
    exact ⟨x, List.mem_cons_self x rest, by omega⟩
  obtain ⟨k, hk, hval, _, hdom, hpre⟩ := getMaxIdxGo_spec (x :: rest) 0 (-1) (-1) hex
  refine ⟨k, by simpa using hval, hk, hdom, ?_⟩
  intro j hj
  rcases hpre j hj with hle | hlt
  · exfalso
    have : (0 : ℤ) ≤ ((x :: rest).getD j 0 : ℤ) := by positivity
    omega
  · exact hlt

theorem foldr_max_ge (arr : List ℕ) : ∀ x ∈ arr, x ≤ arr.foldr max 0 := by
  induction arr with
  | nil => simp
  | cons a rest ih =>
      intro x hx
      rcases List.mem_cons.mp hx with rfl | hr
      · simp [List.foldr_cons]
      · simp only [List.foldr_cons]
        exact le_trans (ih x hr) (le_max_right _ _)

theorem foldr_max_le (arr : List ℕ) (b : ℕ) (h : ∀ x ∈ arr, x ≤ b) :
    arr.foldr max 0 ≤ b := by
  induction arr with
  | nil => simp
  | cons a rest ih =>
      simp only [List.foldr_cons, max_le_iff]
      exact ⟨h a (List.mem_cons_self a rest),
        ih fun x hx => h x (List.mem_cons_of_mem a hx)⟩

theorem indexOf_eq_of_first (v : ℕ) :
    ∀ (l : List ℕ) (k : ℕ), k < l.length → l.getD k 0 = v →
      (∀ j < k, l.getD j 0 ≠ v) → l.indexOf v = k := by
  intro l
  induction l with
  | nil => intro k hk; simp at hk
  | cons a rest ih =>
      intro k hk hkv hprev
      match k with
      | 0 =>
          simp only [List.getD_cons_zero] at hkv
          subst hkv
          exact List.indexOf_cons_self a rest
      | k + 1 =>
          have ha : a ≠ v := by
            have := hprev 0 (Nat.succ_pos k)
            simpa using this
          rw [List.indexOf_cons_ne rest ha]
          have := ih k (by simpa using hk) (by simpa using hkv)
            (fun j hj => by simpa using hprev (j + 1) (by omega))
          omega

theorem getMaxIndex_eq_firstMax (arr : List ℕ) (h : arr ≠ []) :
    getMaxIndex arr = (firstMaxIndex arr : ℤ) ∧ firstMaxIndex arr < arr.length := by
  obtain ⟨k, hval, hk, hdom, hpre⟩ := getMaxIndex_spec arr h
  have hkmem : arr.getD k 0 ∈ arr := getD_mem_of_lt arr k hk
  have hmax : arr.foldr max 0 = arr.getD k 0 := by
    refine le_antisymm (foldr_max_le arr _ ?_) (foldr_max_ge arr _ hkmem)
    intro x hx
    obtain ⟨j, hj, rfl⟩ := List.mem_iff_getElem.mp hx
    have : arr[j] = arr.getD j 0 := by
      rw [List.getD_eq_getElem arr 0 hj]
    rw [this]
    exact hdom j hj
  have hidx : arr.indexOf (arr.foldr max 0) = k := by
    rw [hmax]
    exact indexOf_eq_of_first _ arr k hk rfl
      (fun j hj => Nat.ne_of_lt (hpre j hj))
  unfold firstMaxIndex
  rw [hidx]
  exact ⟨hval, by omega⟩

theorem sum_set_add (l : List ℕ) :
    ∀ (i : ℕ), i < l.length → ∀ v : ℕ, (l.set i v).sum + l.getD i 0 = l.sum + v := by
  induction l with
  | nil => intro i hi; simp at hi
  | cons a rest ih =>
      intro i hi v
      match i with
      | 0 => simp [List.set]; omega
      | i + 1 =>
          simp only [List.set, List.sum_cons, List.getD_cons_succ]
          have := ih i (by simpa using hi) v
          omega

theorem sum_eq_length_of_all_one (l : List ℕ)
    (h1 : ∀ f ∈ l, 1 ≤ f) (h2 : ∀ f ∈ l, f ≤ 1) : l.sum = l.length := by
  induction l with
  | nil => simp
  | cons a rest ih =>
      have ha1 := h1 a (List.mem_cons_self a rest)
      have ha2 := h2 a (List.mem_cons_self a rest)
      have : a = 1 := le_antisymm ha2 ha1
      subst this
      simp only [List.sum_cons, List.length_cons]
      rw [ih (fun f hf => h1 f (List.mem_cons_of_mem _ hf))
        (fun f hf => h2 f (List.mem_cons_of_mem _ hf))]
      omega

/-- The shrink loop realises the spec's fix-up: it iterates "decrement the
first index holding the maximum" exactly `sum - target` times. -/
theorem shrinkLoop_eq_iterate (maxSyms target : ℕ) :
    ∀ (d : ℕ) (freq : List ℕ), freq.sum = target + d → freq.length ≤ maxSyms →
      shrinkLoop maxSyms target freq freq.sum =
        some (decFirstMax^[d] freq, min freq.sum target) := by
  intro d
  induction d with
  | zero =>
      intro freq hsum _
      rw [shrinkLoop_unfold]
      simp only [if_neg (by omega : ¬ target < freq.sum)]
      simp [hsum]
  | succ d ih =>
      intro freq hsum hlen
      have hne : freq ≠ [] := by
        intro h; rw [h] at hsum; simp at hsum; omega
      obtain ⟨hval, hflt⟩ := getMaxIndex_eq_firstMax freq hne
      rw [shrinkLoop_unfold]
      simp only [if_pos (by omega : target < freq.sum)]
      rw [hval]
      have hge0 : ¬((firstMaxIndex freq : ℤ) < 0 ∨ (maxSyms : ℤ) < (firstMaxIndex freq : ℤ)) := by
        push_neg
        constructor
        · positivity
        · exact_mod_cast le_of_lt (lt_of_lt_of_le hflt hlen)
      rw [if_neg hge0]
      simp only [Int.toNat_natCast]
      -- the maximum entry is at least 1 since the sum is positive
      have hmaxpos : 1 ≤ freq.getD (firstMaxIndex freq) 0 := by
        by_contra hc
        push_neg at hc
        interval_cases h : freq.getD (firstMaxIndex freq) 0
        · obtain ⟨k, hk, hkl, hdom, _⟩ := getMaxIndex_spec freq hne
          have hkfm : k = firstMaxIndex freq := by
            have h2 := hval.symm.trans hk
            exact_mod_cast h2.symm
          subst hkfm
          have hz : ∀ j < freq.length, freq.getD j 0 = 0 := by
            intro j hj
            have := hdom j hj
            omega
          have : freq.sum = 0 := by
            have : ∀ f ∈ freq, f = 0 := by
              intro f hf
              obtain ⟨j, hj, rfl⟩ := List.mem_iff_getElem.mp hf
              have := hz j hj
              rwa [List.getD_eq_getElem freq 0 hj] at this
            exact List.sum_eq_zero this
          omega
      have hsub : (freq.set (firstMaxIndex freq) (freq.getD (firstMaxIndex freq) 0 - 1)).sum
          = freq.sum - 1 := by
        have := sum_set_add freq (firstMaxIndex freq) hflt
          (freq.getD (firstMaxIndex freq) 0 - 1)
        omega
      have hsum2 : (decFirstMax freq).sum = target + d := by
        unfold decFirstMax
        omega
      have hlen2 : (decFirstMax freq).length ≤ maxSyms := by
        unfold decFirstMax
        rwa [List.length_set]
      have := ih (decFirstMax freq) hsum2 hlen2
      rw [show freq.sum - 1 = (decFirstMax freq).sum by unfold decFirstMax; omega]
      show shrinkLoop maxSyms target (decFirstMax freq) (decFirstMax freq).sum = _
      rw [this, Function.iterate_succ_apply]
      have : min (decFirstMax freq).sum target = min freq.sum target := by omega
      rw [this]

/-- The grow step realises the spec's one-shot deficit addition at the first
index holding the maximum. -/
theorem growStep_eq_set (maxSyms target updated : ℕ) (freq : List ℕ)
    (hne : freq ≠ []) (hlen : freq.length ≤ maxSyms) (hlt : updated < target) :
    growStep maxSyms target updated freq =
      some (freq.set (firstMaxIndex freq)
        (freq.getD (firstMaxIndex freq) 0 + (target - updated))) := by
  obtain ⟨hval, hflt⟩ := getMaxIndex_eq_firstMax freq hne
  unfold growStep
  rw [if_pos hlt, hval]
  have hok : ¬((firstMaxIndex freq : ℤ) < 0 ∨ (maxSyms : ℤ) ≤ (firstMaxIndex freq : ℤ)) := by
    push_neg
    constructor
    · positivity
    · exact_mod_cast lt_of_lt_of_le hflt hlen
  rw [if_neg hok]
  simp

/-- Invariants of iterating the decrement: with all entries at least 1 and the
length at most the target, `d` iterations drive the sum from `target + d` down
to `target` while keeping every entry at least 1. -/
theorem iterate_dec_invariant (target : ℕ) :
    ∀ (d : ℕ) (l : List ℕ), (∀ f ∈ l, 1 ≤ f) → l.length ≤ target →
      l.sum = target + d →
      (decFirstMax^[d] l).sum = target ∧
      (∀ f ∈ decFirstMax^[d] l, 1 ≤ f) ∧
      (decFirstMax^[d] l).length = l.length := by
  intro d
  induction d with
  | zero => intro l h1 _ hsum; simpa using ⟨hsum, h1⟩
  | succ d ih =>
      intro l h1 hlen hsum
      have hne : l ≠ [] := by
        intro h; rw [h] at hsum; simp at hsum; omega
      obtain ⟨hval, hflt⟩ := getMaxIndex_eq_firstMax l hne
      -- some entry is at least 2, else the sum would be the length ≤ target
      have hex2 : ∃ f ∈ l, 2 ≤ f := by
        by_contra hc
        push_neg at hc
        have := sum_eq_length_of_all_one l h1 (fun f hf => by have := hc f hf; omega)
        omega
      have hmax2 : 2 ≤ l.getD (firstMaxIndex l) 0 := by
        obtain ⟨k, hk, hkl, hdom, _⟩ := getMaxIndex_spec l hne
        have hkfm : k = firstMaxIndex l := by
          have h2 := hval.symm.trans hk
          exact_mod_cast h2.symm
        subst hkfm
        obtain ⟨f, hf, hf2⟩ := hex2
        obtain ⟨j, hj, rfl⟩ := List.mem_iff_getElem.mp hf
        have hjd : l[j] = l.getD j 0 := (List.getD_eq_getElem l 0 hj).symm
        have := hdom j hj
        omega
      have hstep1 : ∀ f ∈ decFirstMax l, 1 ≤ f := by
        intro f hf
        unfold decFirstMax at hf
        rcases List.mem_or_eq_of_mem_set hf with hmem | rfl
        · exact h1 f hmem
        · omega
      have hsumstep : (decFirstMax l).sum = target + d := by
        have := sum_set_add l (firstMaxIndex l) hflt (l.getD (firstMaxIndex l) 0 - 1)
        unfold decFirstMax
        omega
      have hlenstep : (decFirstMax l).length = l.length := by
        unfold decFirstMax
        exact List.length_set l _ _
      have := ih (decFirstMax l) hstep1 (by omega) hsumstep
      rw [Function.iterate_succ_apply]
      exact ⟨this.1, this.2.1, by rw [this.2.2, hlenstep]⟩

theorem rescale_ge_one (newSize curr : ℕ) (f : ℕ) :
    1 ≤ rescaleEntry newSize curr f := le_max_left 1 _

theorem size_div_two_succ (x : ℕ) (hx : 0 < x) :
    Nat.size x = Nat.size (x / 2) + 1 := by
  refine le_antisymm ?_ ?_
  · rw [Nat.size_le, pow_succ]
    have h1 : x / 2 < 2 ^ Nat.size (x / 2) := Nat.lt_size_self _
    omega
  · rw [Nat.add_one, Nat.succ_le_iff, Nat.lt_size]
    rcases Nat.eq_zero_or_pos (x / 2) with h0 | hpos2
    · rw [h0, Nat.size_zero]
      simpa using hx
    · have hs : 0 < Nat.size (x / 2) := Nat.size_pos.mpr hpos2
      have h2 : 2 ^ (Nat.size (x / 2) - 1) ≤ x / 2 :=
        Nat.lt_size.mp (by omega)
      rw [show Nat.size (x / 2) = Nat.size (x / 2) - 1 + 1 by omega, pow_succ]
      omega

theorem countBitsGo_eq_size : ∀ (fuel x : ℕ), x ≤ fuel → countBitsGo fuel x = Nat.size x := by
  intro fuel
  induction fuel with
  | zero =>
      intro x hx
      interval_cases x
      rw [countBitsGo, Nat.size_zero]
  | succ fuel ih =>
      intro x hx
      match x with
      | 0 => rw [countBitsGo, Nat.size_zero]
      | x + 1 =>
          rw [countBitsGo, ih ((x + 1) / 2) (by omega),
            (size_div_two_succ (x + 1) (by omega)).symm]

theorem countBits_eq_size (x : ℕ) : countBits x = Nat.size x :=
  countBitsGo_eq_size x x le_rfl

theorem size_lt_two_pow_tableLog (maxTableLog maxSyms n : ℕ)
    (hn : 0 < n) (hsyms : n ≤ maxSyms) (hmax : maxSyms < 2 ^ maxTableLog) :
    n < 2 ^ min maxTableLog (countBits n + 3) := by
  have h1 : n < 2 ^ maxTableLog := lt_of_le_of_lt hsyms hmax
  have h2 : n < 2 ^ (countBits n + 3) := by
    rw [countBits_eq_size]
    calc n < 2 ^ Nat.size n := Nat.lt_size_self n
      _ ≤ 2 ^ (Nat.size n + 3) := Nat.pow_le_pow_right (by norm_num) (by omega)
  rcases le_total maxTableLog (countBits n + 3) with h | h
  · rwa [min_eq_left h]
  · rwa [min_eq_right h]

/-! ## Claim C1 -/

/-- C1: for every non-empty input histogram (all entries ≥ 0, positive sum,
alphabet size within `MAX_SYMS` which is below `2^MAX_TABLE_LOG`),
`NormalizeFrequency` succeeds, afterwards every frequency is ≥ 1 and the sum
of all entries is exactly `2^table_log`, where
`table_log = min(MAX_TABLE_LOG, CountBits(alphabet size) + 3)`. -/
theorem claim_C1_normalize_invariant (maxTableLog maxSyms : ℕ) (freq : List ℕ)
    (hsum : 0 < freq.sum) (hsyms : freq.length ≤ maxSyms)
    (hmax : maxSyms < 2 ^ maxTableLog) :
    ∃ out : List ℕ,
      normalizeFrequency maxTableLog maxSyms freq =
        some (out, min maxTableLog (countBits freq.length + 3)) ∧
      (∀ f ∈ out, 1 ≤ f) ∧
      out.sum = 2 ^ min maxTableLog (countBits freq.length + 3) := by
  have hne : freq ≠ [] := by
    intro h; rw [h] at hsum; simp at hsum
  have hlenpos : 0 < freq.length := List.length_pos.mpr hne
  set L := min maxTableLog (countBits freq.length + 3) with hL
  set target := 2 ^ L with htarget
  have hlen_lt : freq.length < target :=
    size_lt_two_pow_tableLog maxTableLog maxSyms freq.length hlenpos hsyms hmax
  set rescaled := freq.map (rescaleEntry target freq.sum) with hrescaled
  have hr1 : ∀ f ∈ rescaled, 1 ≤ f := by
    intro f hf
    rw [hrescaled, List.mem_map] at hf
    obtain ⟨x, _, rfl⟩ := hf
    exact rescale_ge_one target freq.sum x
  have hrlen : rescaled.length = freq.length := List.length_map freq _
  have hshrink_grow :
      ∃ out, (match shrinkLoop maxSyms target rescaled rescaled.sum with
          | none => none
          | some (f2, updated) =>
              match growStep maxSyms target updated f2 with
              | none => none
              | some f3 => some (f3, L)) = some (out, L) ∧
        (∀ f ∈ out, 1 ≤ f) ∧ out.sum = target := by
    rcases le_or_lt target rescaled.sum with hge | hlt
    · -- shrink case
      have hd : rescaled.sum = target + (rescaled.sum - target) := by omega
      have hshr := shrinkLoop_eq_iterate maxSyms target (rescaled.sum - target)
        rescaled hd (by omega)
      rw [min_eq_right hge] at hshr
      obtain ⟨hs, h1, _⟩ := iterate_dec_invariant target (rescaled.sum - target)
        rescaled hr1 (by omega) hd
      have hgrow : growStep maxSyms target target
          (decFirstMax^[rescaled.sum - target] rescaled) =
          some (decFirstMax^[rescaled.sum - target] rescaled) := by
        unfold growStep
        rw [if_neg (lt_irrefl target)]
      simp only [hshr, hgrow]
      exact ⟨decFirstMax^[rescaled.sum - target] rescaled, rfl, h1, hs⟩
    · -- grow case
      have hstop : shrinkLoop maxSyms target rescaled rescaled.sum =
          some (rescaled, rescaled.sum) := by
        rw [shrinkLoop_unfold]
        simp only [if_neg (by omega : ¬ target < rescaled.sum)]
      have hrne : rescaled ≠ [] := by
        intro h
        rw [h] at hrlen
        simp at hrlen
        omega
      have hgrow := growStep_eq_set maxSyms target rescaled.sum rescaled hrne
        (by omega) hlt
      simp only [hstop, hgrow]
      obtain ⟨hvfm, hflt⟩ := getMaxIndex_eq_firstMax rescaled hrne
      refine ⟨_, rfl, ?_, ?_⟩
      · intro f hf
        rcases List.mem_or_eq_of_mem_set hf with hmem | rfl
        · exact hr1 f hmem
        · have := hr1 _ (getD_mem_of_lt rescaled (firstMaxIndex rescaled) hflt)
          omega
      · have := sum_set_add rescaled (firstMaxIndex rescaled) hflt
          (rescaled.getD (firstMaxIndex rescaled) 0 + (target - rescaled.sum))
        omega
  obtain ⟨out, hmatch, h1, hs⟩ := hshrink_grow
  refine ⟨out, ?_, h1, hs⟩
  unfold normalizeFrequency
  rw [if_neg (by omega : ¬ freq.sum = 0)]
  exact hmatch

/-- Witness for C1: the spec's own example, histogram `{5,3,2}` with
`MAX_TABLE_LOG = 4`, `MAX_SYMS = 3`. -/
theorem claim_C1_witness :
    ∃ out : List ℕ,
      normalizeFrequency 4 3 [5, 3, 2] =
        some (out, min 4 (countBits (List.length [5, 3, 2]) + 3)) ∧
      (∀ f ∈ out, 1 ≤ f) ∧
      out.sum = 2 ^ min 4 (countBits (List.length [5, 3, 2]) + 3) :=
  claim_C1_normalize_invariant 4 3 [5, 3, 2] (by decide) (by decide) (by decide)

/-! ## Claim C5 -/

/-- C5: after the rescaling step, if the sum exceeds the target the shrink
loop repeatedly decrements by 1 the frequency of the first index holding the
maximum (ascending scan, re-evaluated each iteration) until the sum equals the
target; if the sum is below the target, the whole deficit is added to that
single first-maximum index in one step. -/
theorem claim_C5_fixup_policy (maxSyms target : ℕ) (freq : List ℕ)
    (hne : freq ≠ []) (hlen : freq.length ≤ maxSyms) :
    shrinkLoop maxSyms target freq freq.sum =
      some (decFirstMax^[freq.sum - target] freq, min freq.sum target) ∧
    (∀ updated < target, growStep maxSyms target updated freq =
      some (freq.set (firstMaxIndex freq)
        (freq.getD (firstMaxIndex freq) 0 + (target - updated)))) := by
  constructor
  · rcases le_or_lt target freq.sum with hge | hlt
    · exact shrinkLoop_eq_iterate maxSyms target (freq.sum - target) freq
        (by omega) hlen
    · rw [shrinkLoop_unfold]
      rw [if_neg (by omega : ¬ target < freq.sum)]
      rw [show freq.sum - target = 0 by omega]
      rw [min_eq_left (le_of_lt hlt)]
      rfl
  · intro updated hupd
    exact growStep_eq_set maxSyms target updated freq hne hlen hupd

/-- Witness for C5: histogram `[3,2]`, target 4 (one decrement at index 0) and
the grow step at counter 2 (deficit 2 added at index 0 in one step). -/
theorem claim_C5_witness :
    shrinkLoop 3 4 [3, 2] (List.sum [3, 2]) =
      some (decFirstMax^[List.sum [3, 2] - 4] [3, 2], min (List.sum [3, 2]) 4) ∧
    growStep 3 4 2 [3, 2] =
      some (([3, 2] : List ℕ).set (firstMaxIndex [3, 2])
        (([3, 2] : List ℕ).getD (firstMaxIndex [3, 2]) 0 + (4 - 2))) :=
  ⟨(claim_C5_fixup_policy 3 4 [3, 2] (by decide) (by decide)).1,
   (claim_C5_fixup_policy 3 4 [3, 2] (by decide) (by decide)).2 2 (by decide)⟩

/-! ## Claims C2 and C10 -/

/-- C2 counterexample: `[1,1]` is a normalized frequency table for
`table_log = 1` (entries ≥ 1 summing to `2^1`), but the stride is
`(2>>1)+(2>>3)+3 = 4`, which is even, so the walk never leaves slot 0 and
slot 1 is written zero times — not "every slot exactly once". -/
theorem claim_C2_counterexample :
    List.sum [1, 1] = 2 ^ 1 ∧
    ((spreadWrites [1, 1] 1).1.map Prod.fst).count 1 = 0 := by decide

/-- C2 (amended): for every frequency table summing to `table_size = 2^table_log`
with `table_log ∉ {1, 3}` (there the stride `(size>>1)+(size>>3)+3` is even:
4 resp. 8), the spread placement writes every slot in `[0, table_size)` exactly
once, the traversal returns to slot 0, and `FSECreateStatesForEncoding` does
not take the `pos != 0` error return.  The encoder itself only produces
`table_log = min(MAX_TABLE_LOG, CountBits(size)+3) ≥ 4`. -/
theorem claim_C2_spread_completeness (freq : List ℕ) (L : ℕ)
    (h1 : L ≠ 1) (h3 : L ≠ 3) (hsum : freq.sum = 2 ^ L) :
    (∀ s < 2 ^ L, ((spreadWrites freq L).1.map Prod.fst).count s = 1) ∧
    (spreadWrites freq L).2 = 0 ∧
    (fseCreateStates freq L).isSome := by
  obtain ⟨hpos, hfin⟩ := spreadOuterGo_spec L freq 0 0
  have hodd := spreadStep_odd h1 h3
  have hposList : (spreadWrites freq L).1.map Prod.fst =
      (List.range (2 ^ L)).map (fun k => k * spreadStep L % 2 ^ L) := by
    show (spreadOuterGo L freq 0 0).1.map Prod.fst = _
    rw [hpos, hsum]
    exact List.map_congr_left fun k _ => maskAdvance_iterate L k
  have hfin0 : (spreadWrites freq L).2 = 0 := by
    show (spreadOuterGo L freq 0 0).2 = 0
    rw [hfin, hsum, maskAdvance_iterate, Nat.mul_mod_right]
  refine ⟨?_, hfin0, ?_⟩
  · intro s hs
    rw [hposList]
    exact spreadPositions_count hodd s hs
  · unfold fseCreateStates
    simp only [hfin0]
    simp

/-- Witness for the amended C2: table `[2,1,1]` at `table_log = 2`. -/
theorem claim_C2_witness :
    (∀ s < 2 ^ 2, ((spreadWrites [2, 1, 1] 2).1.map Prod.fst).count s = 1) ∧
    (spreadWrites [2, 1, 1] 2).2 = 0 ∧
    (fseCreateStates [2, 1, 1] 2).isSome :=
  claim_C2_spread_completeness [2, 1, 1] 2 (by decide) (by decide) (by decide)

/-- C10: after every update `pos = (pos + step) & tablemask` the position is at
most `tablemask`, so the inner loop `while (pos > tablemask) ...` never
executes: applying it to a freshly masked position is the identity, and each
placement advances by exactly one stride-and-mask step. -/
theorem claim_C10_inner_loop_dead (L pos : ℕ) :
    maskAdvance L pos ≤ 2 ^ L - 1 ∧
    whileAdjust L (maskAdvance L pos) = maskAdvance L pos :=
  ⟨maskAdvance_le_mask L pos, whileAdjust_of_le (maskAdvance_le_mask L pos)⟩

/-! ## Claim C6 -/

theorem getD_set_ne (l : List ℕ) (i j : ℕ) (v d : ℕ) (h : i ≠ j) :
    (l.set i v).getD j d = l.getD j d := by
  simp [List.getD, List.getElem?_set_ne h]

theorem getD_set_self (l : List ℕ) (i : ℕ) (v d : ℕ) (h : i < l.length) :
    (l.set i v).getD i d = v := by
  simp [List.getD, List.getElem?_set_self, h]

theorem getD_set_ne_int (l : List ℤ) (i j : ℕ) (v d : ℤ) (h : i ≠ j) :
    (l.set i v).getD j d = l.getD j d := by
  simp [List.getD, List.getElem?_set_ne h]

theorem getD_set_self_int (l : List ℤ) (i : ℕ) (v d : ℤ) (h : i < l.length) :
    (l.set i v).getD i d = v := by
  simp [List.getD, List.getElem?_set_self, h]

/-- The delta loop writes only at indices `≥ sym0`. -/
theorem deltaBuild_lower (L : ℕ) :
    ∀ (lst : List ℕ) (sym0 : ℕ) (total : ℤ) (dbc : List ℕ) (dst : List ℤ) (s : ℕ),
      s < sym0 →
      (deltaBuild L lst sym0 total dbc dst).1.getD s 0 = dbc.getD s 0 ∧
      (deltaBuild L lst sym0 total dbc dst).2.getD s 0 = dst.getD s 0 := by
  intro lst
  induction lst with
  | nil => intro sym0 total dbc dst s _; exact ⟨rfl, rfl⟩
  | cons f rest ih =>
      intro sym0 total dbc dst s hs
      by_cases hf : 2 ≤ f
      · simp only [deltaBuild, if_pos hf]
        obtain ⟨h1, h2⟩ := ih (sym0 + 1) _ _ _ s (by omega)
        rw [h1, h2, getD_set_ne _ _ _ _ _ (by omega), getD_set_ne_int _ _ _ _ _ (by omega)]
        exact ⟨rfl, rfl⟩
      · simp only [deltaBuild, if_neg hf]
        obtain ⟨h1, h2⟩ := ih (sym0 + 1) _ _ _ s (by omega)
        rw [h1, h2, getD_set_ne _ _ _ _ _ (by omega), getD_set_ne_int _ _ _ _ _ (by omega)]
        exact ⟨rfl, rfl⟩

/-- Closed form of the delta loop: entry `sym0 + k` holds the per-symbol
formulas, with the running total characterised as
`total + Σ_{j<k} max(lst[j], 1)`. -/
theorem deltaBuild_spec (L : ℕ) :
    ∀ (lst : List ℕ) (sym0 : ℕ) (total : ℤ) (dbc : List ℕ) (dst : List ℤ) (k : ℕ),
      k < lst.length → sym0 + lst.length ≤ dbc.length → sym0 + lst.length ≤ dst.length →
      (deltaBuild L lst sym0 total dbc dst).1.getD (sym0 + k) 0 =
        (if 2 ≤ lst.getD k 0 then
          ((((L - countBits (lst.getD k 0 - 1) : ℕ) : ℤ) * 2 ^ 16 -
            (lst.getD k 0 : ℤ) * 2 ^ (L - countBits (lst.getD k 0 - 1))) % 2 ^ 64 % 2 ^ 32).toNat
        else (((L : ℤ) * 2 ^ 16 - 2 ^ L) % 2 ^ 32).toNat) ∧
      (deltaBuild L lst sym0 total dbc dst).2.getD (sym0 + k) 0 =
        wrap16 (total + (((lst.take k).map (fun x => max x 1)).sum : ℤ) -
          (if 2 ≤ lst.getD k 0 then (lst.getD k 0 : ℤ) else 1)) := by
  intro lst
  induction lst with
  | nil => intro sym0 total dbc dst k hk; simp at hk
  | cons f rest ih =>
      intro sym0 total dbc dst k hk hdbc hdst
      match k with
      | 0 =>
          simp only [List.getD_cons_zero, List.take_zero, List.map_nil, List.sum_nil,
            Nat.add_zero]
          by_cases hf : 2 ≤ f
          · simp only [deltaBuild, if_pos hf]
            obtain ⟨h1, h2⟩ := deltaBuild_lower L rest (sym0 + 1) _ _ _ sym0 (by omega)
            rw [h1, h2, getD_set_self _ _ _ _ (by simp at hdbc ⊢; omega),
              getD_set_self_int _ _ _ _ (by simp at hdst ⊢; omega)]
            constructor
            · rfl
            · push_cast; ring_nf
          · simp only [deltaBuild, if_neg hf]
            obtain ⟨h1, h2⟩ := deltaBuild_lower L rest (sym0 + 1) _ _ _ sym0 (by omega)
            rw [h1, h2, getD_set_self _ _ _ _ (by simp at hdbc ⊢; omega),
              getD_set_self_int _ _ _ _ (by simp at hdst ⊢; omega)]
            constructor
            · rfl
            · push_cast; ring_nf
      | k + 1 =>
          have hcontrib : ∀ (t : ℤ), (if 2 ≤ f then t + (f : ℤ) else t + 1) =
              t + ((max f 1 : ℕ) : ℤ) := by
            intro t
            by_cases hf : 2 ≤ f
            · rw [if_pos hf]
              congr 1
              have : max f 1 = f := by omega
              rw [this]
            · rw [if_neg hf]
              congr 1
              have : max f 1 = 1 := by omega
              rw [this]
              norm_num
          have hlen : k < rest.length := by simpa using hk
          have htake : ((f :: rest).take (k + 1)).map (fun x => max x 1) =
              max f 1 :: (rest.take k).map (fun x => max x 1) := by
            simp [List.take_succ_cons]
          by_cases hf : 2 ≤ f
          · simp only [deltaBuild, if_pos hf]
            obtain ⟨h1, h2⟩ := ih (sym0 + 1) (total + (f : ℤ)) (dbc.set sym0 _)
              (dst.set sym0 _) k hlen (by simp at hdbc ⊢; omega) (by simp at hdst ⊢; omega)
            rw [show sym0 + (k + 1) = sym0 + 1 + k by omega]
            rw [h1, h2]
            refine ⟨by simp, ?_⟩
            simp only [List.getD_cons_succ, htake, List.sum_cons]
            congr 1
            have hmf : max f 1 = f := by omega
            push_cast [hmf]
            ring
          · simp only [deltaBuild, if_neg hf]
            obtain ⟨h1, h2⟩ := ih (sym0 + 1) (total + 1) (dbc.set sym0 _)
              (dst.set sym0 _) k hlen (by simp at hdbc ⊢; omega) (by simp at hdst ⊢; omega)
            rw [show sym0 + (k + 1) = sym0 + 1 + k by omega]
            rw [h1, h2]
            refine ⟨by simp, ?_⟩
            simp only [List.getD_cons_succ, htake, List.sum_cons]
            congr 1
            have hmf : max f 1 = 1 := by omega
            push_cast [hmf]
            ring

/-- C6: for each symbol (ascending) with normalized frequency ≥ 2,
`FSECreateStatesForEncoding` sets
`delta_bit_count[sym] = (max_bits_out << 16) - (frequency << max_bits_out)`
(`size_t` arithmetic stored into `uint32_t`) with
`max_bits_out = table_log - CountBits(frequency - 1)`, and
`delta_state[sym] = running_total - frequency` (an `int16_t` store), the
running total being `Σ_{j<sym} max(frequency[j], 1)`; for frequency 1 it sets
`delta_bit_count[sym] = (table_log << 16) - 2^table_log` and
`delta_state[sym] = running_total - 1`. -/
theorem claim_C6_delta_tables (freq : List ℕ) (L : ℕ) (tabs : FSETables) (sym : ℕ)
    (htabs : fseCreateStates freq L = some tabs) (hsym : sym < freq.length)
    (hnorm : freq.sum = 2 ^ L) :
    (2 ≤ freq.getD sym 0 →
      tabs.deltaBitCount.getD sym 0 =
        ((((L - countBits (freq.getD sym 0 - 1) : ℕ) : ℤ) * 2 ^ 16 -
          (freq.getD sym 0 : ℤ) * 2 ^ (L - countBits (freq.getD sym 0 - 1))) % 2 ^ 64 % 2 ^ 32).toNat ∧
      tabs.deltaState.getD sym 0 =
        wrap16 (((((freq.take sym).map (fun x => max x 1)).sum : ℕ) : ℤ) - freq.getD sym 0)) ∧
    (freq.getD sym 0 = 1 →
      tabs.deltaBitCount.getD sym 0 = (((L : ℤ) * 2 ^ 16 - 2 ^ L) % 2 ^ 32).toNat ∧
      tabs.deltaState.getD sym 0 =
        wrap16 (((((freq.take sym).map (fun x => max x 1)).sum : ℕ) : ℤ) - 1)) := by
  have hTab : tabs.deltaBitCount =
      (deltaBuild L freq 0 0 (List.replicate freq.length 0) (List.replicate freq.length 0)).1 ∧
      tabs.deltaState =
      (deltaBuild L freq 0 0 (List.replicate freq.length 0) (List.replicate freq.length 0)).2 := by
    unfold fseCreateStates at htabs
    by_cases hpos : (spreadWrites freq L).2 ≠ 0
    · rw [if_pos hpos] at htabs
      exact absurd htabs (by simp)
    · rw [if_neg hpos] at htabs
      rw [(Option.some.inj htabs).symm]
      exact ⟨rfl, rfl⟩
  obtain ⟨hd1, hd2⟩ := hTab
  obtain ⟨h1, h2⟩ := deltaBuild_spec L freq 0 0
    (List.replicate freq.length 0) (List.replicate freq.length 0) sym
    hsym (by simp) (by simp)
  simp only [Nat.zero_add] at h1 h2
  rw [hd1, hd2, h1, h2]
  constructor
  · intro hge
    rw [if_pos hge, if_pos hge]
    exact ⟨rfl, by norm_num⟩
  · intro heq
    rw [if_neg (by omega), if_neg (by omega)]
    exact ⟨rfl, by norm_num⟩

/-- Witness for C6 at `freq = [3,1]`, `table_log = 2`, `sym = 0` (frequency 3:
`max_bits_out = 0`, `delta_bit_count = 2^32 - 3`, `delta_state = -3`). -/
theorem claim_C6_witness :
    (2 ≤ List.getD [3, 1] 0 0 →
      (FSETables.mk [0, 0, 0, 1] [4, 5, 6, 7] [4294967293, 131068] [-3, 2]).deltaBitCount.getD 0 0 =
        ((((2 - countBits (List.getD [3, 1] 0 0 - 1) : ℕ) : ℤ) * 2 ^ 16 -
          (List.getD [3, 1] 0 0 : ℤ) *
            2 ^ (2 - countBits (List.getD [3, 1] 0 0 - 1))) % 2 ^ 64 % 2 ^ 32).toNat ∧
      (FSETables.mk [0, 0, 0, 1] [4, 5, 6, 7] [4294967293, 131068] [-3, 2]).deltaState.getD 0 0 =
        wrap16 (((((List.take 0 [3, 1]).map (fun x => max x 1)).sum : ℕ) : ℤ) -
          List.getD [3, 1] 0 0)) ∧
    (List.getD [3, 1] 0 0 = 1 →
      (FSETables.mk [0, 0, 0, 1] [4, 5, 6, 7] [4294967293, 131068] [-3, 2]).deltaBitCount.getD 0 0 =
        (((2 : ℤ) * 2 ^ 16 - 2 ^ 2) % 2 ^ 32).toNat ∧
      (FSETables.mk [0, 0, 0, 1] [4, 5, 6, 7] [4294967293, 131068] [-3, 2]).deltaState.getD 0 0 =
        wrap16 (((((List.take 0 [3, 1]).map (fun x => max x 1)).sum : ℕ) : ℤ) - 1)) :=
  claim_C6_delta_tables [3, 1] 2
    ⟨[0, 0, 0, 1], [4, 5, 6, 7], [4294967293, 131068], [-3, 2]⟩ 0
    (by decide) (by decide) (by decide)

/-! ## Claim C3 -/

/-- C3: the encode pipeline.  `FSEEncode` encodes the first symbol once from
`state = table_size` purely to prime the state — the bits pushed by that
priming step are discarded by `Empty()`, so the output stream is built from an
empty stream — then encodes the entire original sequence (first symbol
included) with per-symbol transitions through `FSEEncodeSymbolGetNewState`
(which pushes `bits_out = (state + delta_bit_count[sym]) >> 16` low bits of
`state`), pushes `final state - table_size` using exactly `table_log` bits
after the loop, and the caller (`Compress`) flushes the stream before
serializing it. -/
theorem claim_C3_encode_pipeline (maxTableLog maxSyms : ℕ)
    (syms freqRaw cents : List ℕ) (maxSize : ℕ) (f2 : List ℕ) (L : ℕ)
    (tabs : FSETables)
    (hn : normalizeFrequency maxTableLog maxSyms freqRaw = some (f2, L))
    (ht : fseCreateStates f2 L = some tabs)
    (hd : syms ≠ []) :
    compressCore maxTableLog maxSyms syms freqRaw cents maxSize =
      serResult (serializingToBuffer
        (bsFlush (bsPush
          (syms.foldl (fun acc sym => fseEncodeSymbolGetNewState tabs acc.1 sym acc.2)
            (⟨[], 0, 0⟩,
             (fseEncodeSymbolGetNewState tabs ⟨[], 0, 0⟩ (syms.headD 0) (2 ^ L % 2 ^ 16)).2)).1
          (((syms.foldl (fun acc sym => fseEncodeSymbolGetNewState tabs acc.1 sym acc.2)
            (⟨[], 0, 0⟩,
             (fseEncodeSymbolGetNewState tabs ⟨[], 0, 0⟩ (syms.headD 0) (2 ^ L % 2 ^ 16)).2)).2 : ℤ)
            - 2 ^ L) L))
        ⟨freqRaw.length, f2, cents⟩ L maxSize) := by
  have hlen : 16 * syms.length ≠ 0 := by
    have : syms.length ≠ 0 := fun h => hd (List.length_eq_zero.mp h)
    omega
  simp only [compressCore, hn, bsCreate, if_neg hlen, fseEncode, ht]
  rfl

/-- Witness for C3: `MAX_TABLE_LOG = 2`, `MAX_SYMS = 2`, sequence `[0,1,0]`,
raw histogram `[2,1]` (normalizes to `[3,1]` at `table_log = 2`), centroid bit
patterns `[9,9]`, budget 41. -/
theorem claim_C3_witness :
    compressCore 2 2 [0, 1, 0] [2, 1] [9, 9] 41 =
      serResult (serializingToBuffer
        (bsFlush (bsPush
          (List.foldl (fun acc sym => fseEncodeSymbolGetNewState
              ⟨[0, 0, 0, 1], [4, 5, 6, 7], [4294967293, 131068], [-3, 2]⟩ acc.1 sym acc.2)
            (⟨[], 0, 0⟩,
             (fseEncodeSymbolGetNewState
              ⟨[0, 0, 0, 1], [4, 5, 6, 7], [4294967293, 131068], [-3, 2]⟩ ⟨[], 0, 0⟩
              (List.headD [0, 1, 0] 0) (2 ^ 2 % 2 ^ 16)).2) [0, 1, 0]).1
          (((List.foldl (fun acc sym => fseEncodeSymbolGetNewState
              ⟨[0, 0, 0, 1], [4, 5, 6, 7], [4294967293, 131068], [-3, 2]⟩ acc.1 sym acc.2)
            (⟨[], 0, 0⟩,
             (fseEncodeSymbolGetNewState
              ⟨[0, 0, 0, 1], [4, 5, 6, 7], [4294967293, 131068], [-3, 2]⟩ ⟨[], 0, 0⟩
              (List.headD [0, 1, 0] 0) (2 ^ 2 % 2 ^ 16)).2) [0, 1, 0]).2 : ℤ)
            - 2 ^ 2) 2))
        ⟨List.length [2, 1], [3, 1], [9, 9]⟩ 2 41) :=
  claim_C3_encode_pipeline 2 2 [0, 1, 0] [2, 1] [9, 9] 41 [3, 1] 2
    ⟨[0, 0, 0, 1], [4, 5, 6, 7], [4294967293, 131068], [-3, 2]⟩
    (by decide) (by decide) (by decide)

/-! ## Helper lemmas: serializer phases -/

theorem serSeq_some (evs : List SerEvent) (off : ℕ)
    (k : ℕ → List SerEvent × Option ℕ) :
    serSeq (evs, some off) k = (evs ++ (k off).1, (k off).2) := rfl

theorem serSeq_none (evs : List SerEvent) (k : ℕ → List SerEvent × Option ℕ) :
    serSeq (evs, none) k = (evs, none) := rfl

theorem serSeq_snd_some (p : List SerEvent × Option ℕ)
    (k : ℕ → List SerEvent × Option ℕ) (r : ℕ)
    (h : (serSeq p k).2 = some r) :
    ∃ off, p.2 = some off ∧ (k off).2 = some r := by
  obtain ⟨evs, o⟩ := p
  cases o with
  | none => simp [serSeq] at h
  | some off => exact ⟨off, rfl, h⟩

theorem serOne_of_le (M w v off : ℕ) (h : off + w ≤ M) :
    serOne M w v off = ([(off, w, v)], some (off + w)) := by
  unfold serOne
  rw [if_neg (not_lt.mpr h)]

theorem serOne_snd_some (M w v off r : ℕ)
    (h : (serOne M w v off).2 = some r) : r = off + w ∧ off + w ≤ M := by
  unfold serOne at h
  by_cases hc : M < off + w
  · rw [if_pos hc] at h; simp at h
  · rw [if_neg hc] at h
    simp at h
    omega

theorem serEntries_of_le (M w : ℕ) :
    ∀ (n : ℕ) (v : ℕ → ℕ) (off : ℕ), off + w * n ≤ M →
      serEntries M w ((List.range n).map v) off =
        ((List.range n).map (fun j => (off + w * j, w, v j)), some (off + w * n)) := by
  intro n
  induction n with
  | zero => intro v off _; simp [serEntries]
  | succ n ih =>
      intro v off h
      have hexp : w * (n + 1) = w * n + w := by ring
      rw [List.range_succ_eq_map, List.map_cons, List.map_map, serEntries,
        if_neg (by omega : ¬ M < off + w)]
      have hcomp : (List.range n).map (v ∘ Nat.succ) =
          (List.range n).map (fun j => v (j + 1)) :=
        List.map_congr_left fun j _ => rfl
      have htail := ih (fun j => v (j + 1)) (off + w) (by omega)
      simp only [hcomp, htail]
      simp only [List.map_cons, List.map_map]
      refine congrArg₂ Prod.mk ?_ ?_
      · refine congrArg₂ List.cons (by simp) ?_
        apply List.map_congr_left
        intro j _
        simp only [Function.comp_apply, Nat.succ_eq_add_one]
        refine congrArg (fun z => (z, w, v (j + 1))) ?_
        ring
      · refine congrArg some ?_
        ring

theorem serEntries_snd_some (M w : ℕ) :
    ∀ (vals : List ℕ) (off r : ℕ), (serEntries M w vals off).2 = some r →
      r = off + w * vals.length := by
  intro vals
  induction vals with
  | nil =>
      intro off r h
      simp [serEntries] at h
      simp [h]
  | cons v rest ih =>
      intro off r h
      unfold serEntries at h
      by_cases hc : M < off + w
      · rw [if_pos hc] at h; simp at h
      · rw [if_neg hc] at h
        simp only at h
        have := ih (off + w) r h
        simp [this, List.length_cons]
        ring

theorem serPadGo_of_le (M : ℕ) :
    ∀ (k fuel off : ℕ), off % 2 = 0 → (8 - off % 8) % 8 = 2 * k →
      off + 2 * k ≤ M → k < fuel →
      serPadGo M fuel off =
        ((List.range k).map (fun i => (off + 2 * i, 2, 0)), some (off + 2 * k)) := by
  intro k
  induction k with
  | zero =>
      intro fuel off h2 h8 _ hf
      match fuel, hf with
      | fuel + 1, _ =>
          rw [serPadGo, if_pos (by omega : off % 8 = 0)]
          simp
  | succ k ih =>
      intro fuel off h2 h8 hM hf
      match fuel, hf with
      | fuel + 1, _ =>
          rw [serPadGo, if_neg (by omega : ¬ off % 8 = 0),
            if_neg (by omega : ¬ M < off + 2)]
          have hrec := ih fuel (off + 2) (by omega) (by omega) (by omega) (by omega)
          simp only [hrec]
          rw [List.range_succ_eq_map, List.map_cons, List.map_map]
          refine congrArg₂ Prod.mk ?_ ?_
          · refine congrArg₂ List.cons (by simp) ?_
            apply List.map_congr_left
            intro i _
            simp only [Function.comp_apply, Nat.succ_eq_add_one]
            refine congrArg (fun z => (z, 2, 0)) ?_
            ring
          · refine congrArg some ?_
            ring

theorem serPad_of_le (M off : ℕ) (h2 : off % 2 = 0)
    (hM : off + (8 - off % 8) % 8 ≤ M) :
    serPad M off =
      ((List.range ((8 - off % 8) % 8 / 2)).map (fun i => (off + 2 * i, 2, 0)),
       some (off + (8 - off % 8) % 8)) := by
  have hk : (8 - off % 8) % 8 = 2 * ((8 - off % 8) % 8 / 2) := by omega
  unfold serPad
  rw [serPadGo_of_le M ((8 - off % 8) % 8 / 2) (M + 2 - off) off h2 hk (by omega) (by omega)]
  rw [← hk]

theorem serPadGo_snd_some (M : ℕ) :
    ∀ (fuel off r : ℕ), off % 2 = 0 → (serPadGo M fuel off).2 = some r →
      r = off + (8 - off % 8) % 8 := by
  intro fuel
  induction fuel with
  | zero => intro off r _ h; simp [serPadGo] at h
  | succ fuel ih =>
      intro off r h2 h
      rw [serPadGo] at h
      by_cases h8 : off % 8 = 0
      · rw [if_pos h8] at h
        simp at h
        omega
      · rw [if_neg h8] at h
        by_cases hc : M < off + 2
        · rw [if_pos hc] at h; simp at h
        · rw [if_neg hc] at h
          simp only at h
          have := ih (off + 2) r (by omega) h
          omega

theorem serPad_snd_some (M off r : ℕ) (h2 : off % 2 = 0)
    (h : (serPad M off).2 = some r) : r = off + (8 - off % 8) % 8 :=
  serPadGo_snd_some M (M + 2 - off) off r h2 h

theorem chunkCount_toNat (bs : FSEBitStream) :
    (getCurrChunkIndex bs + 2).toNat = bs.chunks.length + 1 := by
  unfold getCurrChunkIndex
  omega

/-- With sufficient budget, the serializer performs exactly the layout of the
specification and reports `requiredSize` as the output size. -/
theorem serialize_of_le (bs : FSEBitStream) (q : FSEQuant) (L M : ℕ)
    (h : requiredSize bs q ≤ M) :
    serializingToBuffer bs q L M =
      (specSerializedLayout bs q L, some (requiredSize bs q)) := by
  have hRdef : requiredSize bs q =
      8 + 4 * q.size + (8 - (8 + 4 * q.size) % 8) % 8 + 4 * q.size +
        (8 - (8 + 4 * q.size + (8 - (8 + 4 * q.size) % 8) % 8 + 4 * q.size) % 8) % 8 +
        8 * bs.chunks.length + 8 + 1 := rfl
  rw [hRdef] at h
  have e1 : serOne M 2 (L % 2 ^ 16) 2 = ([(2, 2, L % 2 ^ 16)], some 4) := by
    rw [serOne_of_le M 2 (L % 2 ^ 16) 2 (by omega)]
  have e2 : serOne M 4 ((bs.chunks.length + 1) % 2 ^ 32) 4 =
      ([(4, 4, (bs.chunks.length + 1) % 2 ^ 32)], some 8) := by
    rw [serOne_of_le M 4 ((bs.chunks.length + 1) % 2 ^ 32) 4 (by omega)]
  have e3 := serEntries_of_le M 4 q.size (fun j => q.frequency.getD j 0 % 2 ^ 32) 8
    (by omega)
  have e4 := serPad_of_le M (8 + 4 * q.size) (by omega) (by omega)
  have e5 := serEntries_of_le M 4 q.size (fun j => q.centroids.getD j 0)
    (8 + 4 * q.size + (8 - (8 + 4 * q.size) % 8) % 8) (by omega)
  have e6 := serPad_of_le M
    (8 + 4 * q.size + (8 - (8 + 4 * q.size) % 8) % 8 + 4 * q.size) (by omega) (by omega)
  have e7 := serEntries_of_le M 8 bs.chunks.length (fun j => bs.chunks.getD j 0 % 2 ^ 64)
    (8 + 4 * q.size + (8 - (8 + 4 * q.size) % 8) % 8 + 4 * q.size +
      (8 - (8 + 4 * q.size + (8 - (8 + 4 * q.size) % 8) % 8 + 4 * q.size) % 8) % 8)
    (by omega)
  have e8 := serOne_of_le M 8 (bs.currChunk % 2 ^ 64)
    (8 + 4 * q.size + (8 - (8 + 4 * q.size) % 8) % 8 + 4 * q.size +
      (8 - (8 + 4 * q.size + (8 - (8 + 4 * q.size) % 8) % 8 + 4 * q.size) % 8) % 8 +
      8 * bs.chunks.length) (by omega)
  have e9 := serOne_of_le M 1 (bs.currBitCount % 2 ^ 8)
    (8 + 4 * q.size + (8 - (8 + 4 * q.size) % 8) % 8 + 4 * q.size +
      (8 - (8 + 4 * q.size + (8 - (8 + 4 * q.size) % 8) % 8 + 4 * q.size) % 8) % 8 +
      8 * bs.chunks.length + 8) (by omega)
  have hfin : ¬ M <
      8 + 4 * q.size + (8 - (8 + 4 * q.size) % 8) % 8 + 4 * q.size +
        (8 - (8 + 4 * q.size + (8 - (8 + 4 * q.size) % 8) % 8 + 4 * q.size) % 8) % 8 +
        8 * bs.chunks.length + 8 + 1 := by omega
  simp only [serializingToBuffer, serSeq_some, e1, e2, e3, e4, e5, e6, e7, e8, e9,
    if_neg hfin, chunkCount_toNat, specSerializedLayout, hRdef]
  refine congrArg₂ Prod.mk ?_ rfl
  simp [List.append_assoc]

/-- If the serializer reports success, the reported size is exactly
`requiredSize` and the budget was at least that. -/
theorem serialize_snd_some (bs : FSEBitStream) (q : FSEQuant) (L M R : ℕ)
    (h : (serializingToBuffer bs q L M).2 = some R) :
    R = requiredSize bs q ∧ requiredSize bs q ≤ M := by
  unfold serializingToBuffer at h
  obtain ⟨o1, ho1, h⟩ := serSeq_snd_some _ _ _ h
  simp only [Option.some.injEq] at ho1
  subst ho1
  obtain ⟨o2, ho2, h⟩ := serSeq_snd_some _ _ _ h
  obtain ⟨ho2v, -⟩ := serOne_snd_some _ _ _ _ _ ho2
  subst ho2v
  obtain ⟨o3, ho3, h⟩ := serSeq_snd_some _ _ _ h
  obtain ⟨ho3v, -⟩ := serOne_snd_some _ _ _ _ _ ho3
  subst ho3v
  obtain ⟨o4, ho4, h⟩ := serSeq_snd_some _ _ _ h
  have ho4v := serEntries_snd_some _ _ _ _ _ ho4
  rw [List.length_map, List.length_range] at ho4v
  subst ho4v
  obtain ⟨o5, ho5, h⟩ := serSeq_snd_some _ _ _ h
  have ho5v := serPad_snd_some _ _ _ (by omega) ho5
  subst ho5v
  obtain ⟨o6, ho6, h⟩ := serSeq_snd_some _ _ _ h
  have ho6v := serEntries_snd_some _ _ _ _ _ ho6
  rw [List.length_map, List.length_range] at ho6v
  subst ho6v
  obtain ⟨o7, ho7, h⟩ := serSeq_snd_some _ _ _ h
  have ho7v := serPad_snd_some _ _ _ (by omega) ho7
  subst ho7v
  obtain ⟨o8, ho8, h⟩ := serSeq_snd_some _ _ _ h
  have ho8v := serEntries_snd_some _ _ _ _ _ ho8
  rw [List.length_map, List.length_range] at ho8v
  subst ho8v
  obtain ⟨o9, ho9, h⟩ := serSeq_snd_some _ _ _ h
  obtain ⟨ho9v, -⟩ := serOne_snd_some _ _ _ _ _ ho9
  subst ho9v
  obtain ⟨o10, ho10, h⟩ := serSeq_snd_some _ _ _ h
  obtain ⟨ho10v, -⟩ := serOne_snd_some _ _ _ _ _ ho10
  subst ho10v
  by_cases hM : M <
      2 + 2 + 4 + 4 * q.size + (8 - (2 + 2 + 4 + 4 * q.size) % 8) % 8 + 4 * q.size +
        (8 - (2 + 2 + 4 + 4 * q.size + (8 - (2 + 2 + 4 + 4 * q.size) % 8) % 8 +
          4 * q.size) % 8) % 8 + 8 * bs.chunks.length + 8 + 1
  · rw [if_pos hM] at h
    simp at h
  · rw [if_neg hM] at h
    simp only [Option.some.injEq] at h
    have hRdef : requiredSize bs q =
        8 + 4 * q.size + (8 - (8 + 4 * q.size) % 8) % 8 + 4 * q.size +
          (8 - (8 + 4 * q.size + (8 - (8 + 4 * q.size) % 8) % 8 + 4 * q.size) % 8) % 8 +
          8 * bs.chunks.length + 8 + 1 := rfl
    omega

theorem chain_append_between (l1 l2 : List ℕ) (mid : ℕ)
    (h1 : l1.Chain' (· < ·)) (hub : ∀ x ∈ l1, x < mid)
    (h2 : l2.Chain' (· < ·)) (hlb : ∀ x ∈ l2, mid ≤ x) :
    (l1 ++ l2).Chain' (· < ·) :=
  List.Chain'.append h1 h2 fun x hx y hy =>
    lt_of_lt_of_le (hub x (List.mem_of_mem_getLast? hx)) (hlb y (List.mem_of_mem_head? hy))

theorem chain_affine (a w n : ℕ) (hw : 0 < w) :
    ((List.range n).map (fun j => a + w * j)).Chain' (· < ·) := by
  rw [List.chain'_map]
  refine List.Pairwise.chain' ?_
  refine (List.pairwise_lt_range n).imp ?_
  intro i j hij
  exact Nat.add_lt_add_left ((Nat.mul_lt_mul_left hw).mpr hij) a

theorem mem_affine_lb (a w n x : ℕ)
    (hx : x ∈ (List.range n).map (fun j => a + w * j)) : a ≤ x := by
  rw [List.mem_map] at hx
  obtain ⟨j, _, rfl⟩ := hx
  exact Nat.le_add_right a (w * j)

theorem mem_affine_ub (a w n x : ℕ) (hw : 0 < w)
    (hx : x ∈ (List.range n).map (fun j => a + w * j)) : x < a + w * n := by
  rw [List.mem_map] at hx
  obtain ⟨j, hj, rfl⟩ := hx
  rw [List.mem_range] at hj
  exact Nat.add_lt_add_left ((Nat.mul_lt_mul_left hw).mpr hj) a

/-- The offsets of the specification layout are strictly increasing. -/
theorem specLayout_chain (bs : FSEBitStream) (q : FSEQuant) (L : ℕ) :
    ((specSerializedLayout bs q L).map (fun e => e.1)).Chain' (· < ·) := by
  have hcomp : ∀ (a w : ℕ) (v : ℕ → ℕ) (n : ℕ),
      ((List.range n).map (fun j => ((a + w * j : ℕ), w, v j))).map (fun e => e.1) =
        (List.range n).map (fun j => a + w * j) := by
    intro a w v n
    rw [List.map_map]
    rfl
  have hpad : ∀ (a n : ℕ),
      ((List.range n).map (fun k => ((a + 2 * k : ℕ), (2 : ℕ), (0 : ℕ)))).map (fun e => e.1) =
        (List.range n).map (fun j => a + 2 * j) := by
    intro a n
    rw [List.map_map]
    rfl
  unfold specSerializedLayout
  simp only [List.map_append, hcomp, hpad, List.map_cons, List.map_nil, List.append_assoc,
    List.cons_append, List.nil_append]
  -- segment boundaries
  set N := q.size with hN
  set Cn := bs.chunks.length with hCn
  set o1 : ℕ := 8 + 4 * N with ho1
  set k1 : ℕ := (8 - o1 % 8) % 8 / 2 with hk1
  set o2 : ℕ := o1 + (8 - o1 % 8) % 8 with ho2
  set o3 : ℕ := o2 + 4 * N with ho3
  set k2 : ℕ := (8 - o3 % 8) % 8 / 2 with hk2
  set o4 : ℕ := o3 + (8 - o3 % 8) % 8 with ho4
  set o5 : ℕ := o4 + 8 * Cn with ho5
  have ho1even : o1 % 2 = 0 := by omega
  have hk1pad : o1 + 2 * k1 = o2 := by omega
  have ho3even : o3 % 2 = 0 := by omega
  have hk2pad : o3 + 2 * k2 = o4 := by omega
  -- suffix 6: the two trailing events
  have T6 : ([o5, o5 + 8] : List ℕ).Chain' (· < ·) ∧ ∀ x ∈ ([o5, o5 + 8] : List ℕ), o5 ≤ x := by
    constructor
    · simp [List.chain'_cons]
    · intro x hx
      simp at hx
      rcases hx with rfl | rfl <;> omega
  -- suffix 5: chunks then trailer
  have T5 : (((List.range Cn).map (fun j => o4 + 8 * j)) ++ [o5, o5 + 8]).Chain' (· < ·) ∧
      ∀ x ∈ ((List.range Cn).map (fun j => o4 + 8 * j)) ++ [o5, o5 + 8], o4 ≤ x := by
    constructor
    · refine chain_append_between _ _ o5 (chain_affine _ _ _ (by norm_num)) ?_ T6.1 T6.2
      intro x hx
      have := mem_affine_ub o4 8 Cn x (by norm_num) hx
      omega
    · intro x hx
      rw [List.mem_append] at hx
      rcases hx with hx | hx
      · exact mem_affine_lb _ _ _ _ hx
      · have := T6.2 x hx
        omega
  -- suffix 4: second padding
  have T4 : (((List.range k2).map (fun j => o3 + 2 * j)) ++
        (((List.range Cn).map (fun j => o4 + 8 * j)) ++ [o5, o5 + 8])).Chain' (· < ·) ∧
      ∀ x ∈ ((List.range k2).map (fun j => o3 + 2 * j)) ++
        (((List.range Cn).map (fun j => o4 + 8 * j)) ++ [o5, o5 + 8]), o3 ≤ x := by
    constructor
    · refine chain_append_between _ _ o4 (chain_affine _ _ _ (by norm_num)) ?_ T5.1 T5.2
      intro x hx
      have := mem_affine_ub o3 2 k2 x (by norm_num) hx
      omega
    · intro x hx
      rw [List.mem_append] at hx
      rcases hx with hx | hx
      · exact mem_affine_lb _ _ _ _ hx
      · have := T5.2 x hx
        omega
  -- suffix 3: centroids
  have T3 : (((List.range N).map (fun j => o2 + 4 * j)) ++
        (((List.range k2).map (fun j => o3 + 2 * j)) ++
          (((List.range Cn).map (fun j => o4 + 8 * j)) ++ [o5, o5 + 8]))).Chain' (· < ·) ∧
      ∀ x ∈ ((List.range N).map (fun j => o2 + 4 * j)) ++
        (((List.range k2).map (fun j => o3 + 2 * j)) ++
          (((List.range Cn).map (fun j => o4 + 8 * j)) ++ [o5, o5 + 8])), o2 ≤ x := by
    constructor
    · refine chain_append_between _ _ o3 (chain_affine _ _ _ (by norm_num)) ?_ T4.1 T4.2
      intro x hx
      have := mem_affine_ub o2 4 N x (by norm_num) hx
      omega
    · intro x hx
      rw [List.mem_append] at hx
      rcases hx with hx | hx
      · exact mem_affine_lb _ _ _ _ hx
      · have := T4.2 x hx
        omega
  -- suffix 2: first padding
  have T2 : (((List.range k1).map (fun j => o1 + 2 * j)) ++
        (((List.range N).map (fun j => o2 + 4 * j)) ++
          (((List.range k2).map (fun j => o3 + 2 * j)) ++
            (((List.range Cn).map (fun j => o4 + 8 * j)) ++ [o5, o5 + 8])))).Chain' (· < ·) ∧
      ∀ x ∈ ((List.range k1).map (fun j => o1 + 2 * j)) ++
        (((List.range N).map (fun j => o2 + 4 * j)) ++
          (((List.range k2).map (fun j => o3 + 2 * j)) ++
            (((List.range Cn).map (fun j => o4 + 8 * j)) ++ [o5, o5 + 8]))), o1 ≤ x := by
    constructor
    · refine chain_append_between _ _ o2 (chain_affine _ _ _ (by norm_num)) ?_ T3.1 T3.2
      intro x hx
      have := mem_affine_ub o1 2 k1 x (by norm_num) hx
      omega
    · intro x hx
      rw [List.mem_append] at hx
      rcases hx with hx | hx
      · exact mem_affine_lb _ _ _ _ hx
      · have := T3.2 x hx
        omega
  -- suffix 1: frequencies
  have T1 : (((List.range N).map (fun j => 8 + 4 * j)) ++
        (((List.range k1).map (fun j => o1 + 2 * j)) ++
          (((List.range N).map (fun j => o2 + 4 * j)) ++
            (((List.range k2).map (fun j => o3 + 2 * j)) ++
              (((List.range Cn).map (fun j => o4 + 8 * j)) ++ [o5, o5 + 8]))))).Chain' (· < ·) ∧
      ∀ x ∈ ((List.range N).map (fun j => 8 + 4 * j)) ++
        (((List.range k1).map (fun j => o1 + 2 * j)) ++
          (((List.range N).map (fun j => o2 + 4 * j)) ++
            (((List.range k2).map (fun j => o3 + 2 * j)) ++
              (((List.range Cn).map (fun j => o4 + 8 * j)) ++ [o5, o5 + 8])))), 8 ≤ x := by
    constructor
    · refine chain_append_between _ _ o1 (chain_affine _ _ _ (by norm_num)) ?_ T2.1 T2.2
      intro x hx
      have := mem_affine_ub 8 4 N x (by norm_num) hx
      omega
    · intro x hx
      rw [List.mem_append] at hx
      rcases hx with hx | hx
      · exact mem_affine_lb _ _ _ _ hx
      · have := T2.2 x hx
        omega
  -- prepend the three header offsets
  refine List.chain'_cons.mpr ⟨by norm_num, ?_⟩
  refine List.chain'_cons.mpr ⟨by norm_num, ?_⟩
  rcases T1 with ⟨Tc, Tb⟩
  refine List.chain'_cons'.mpr ⟨?_, Tc⟩
  intro y hy
  have hmem := List.mem_of_mem_head? hy
  have := Tb y hmem
  omega

/-! ## Claims C4, C7, C9, C8 -/

/-- C4: whenever `SerializingToBuffer` succeeds, the stores it performed are
exactly the specification's layout — symbol count (`uint16`) at 0, table-log
(`uint16`) at 2, chunk-index+2 (`uint32`) at 4, `size` `uint32` frequencies,
`uint16` zero padding to an 8-byte boundary, `size` `float32` centroids,
padding, chunk-index+1 `uint64` chunks, the current partial chunk (`uint64`)
and the current bit count (`uint8`) — at strictly increasing offsets. -/
theorem claim_C4_serialized_layout (bs : FSEBitStream) (q : FSEQuant) (L M R : ℕ)
    (h : (serializingToBuffer bs q L M).2 = some R) :
    (serializingToBuffer bs q L M).1 = specSerializedLayout bs q L ∧
    ((serializingToBuffer bs q L M).1.map (fun e => e.1)).Chain' (· < ·) := by
  obtain ⟨hR, hle⟩ := serialize_snd_some bs q L M R h
  have heq := serialize_of_le bs q L M hle
  constructor
  · rw [heq]
  · rw [heq]
    exact specLayout_chain bs q L

/-- Witness for C4: a stream with one committed chunk, two symbols, budget 100
(the exact size is 41). -/
theorem claim_C4_witness :
    (serializingToBuffer ⟨[3], 5, 7⟩ ⟨2, [4, 5], [6, 7]⟩ 4 100).1 =
      specSerializedLayout ⟨[3], 5, 7⟩ ⟨2, [4, 5], [6, 7]⟩ 4 ∧
    ((serializingToBuffer ⟨[3], 5, 7⟩ ⟨2, [4, 5], [6, 7]⟩ 4 100).1.map
      (fun e => e.1)).Chain' (· < ·) :=
  claim_C4_serialized_layout ⟨[3], 5, 7⟩ ⟨2, [4, 5], [6, 7]⟩ 4 100 41 (by decide)

/-- C7: serialization with a budget exactly equal to the true required size
succeeds and reports that size through `*out_size`; with a budget one byte
smaller it takes the error return (and `*out_size`, modelled by the `Option`,
is never written). -/
theorem claim_C7_budget_exactness (bs : FSEBitStream) (q : FSEQuant) (L : ℕ) :
    (serializingToBuffer bs q L (requiredSize bs q)).2 = some (requiredSize bs q) ∧
    (serializingToBuffer bs q L (requiredSize bs q - 1)).2 = none := by
  constructor
  · rw [serialize_of_le bs q L _ le_rfl]
  · cases hopt : (serializingToBuffer bs q L (requiredSize bs q - 1)).2 with
    | none => rfl
    | some R =>
        obtain ⟨hR, hle⟩ := serialize_snd_some bs q L _ R hopt
        have h9 : 9 ≤ requiredSize bs q := by
          have : requiredSize bs q =
              8 + 4 * q.size + (8 - (8 + 4 * q.size) % 8) % 8 + 4 * q.size +
                (8 - (8 + 4 * q.size + (8 - (8 + 4 * q.size) % 8) % 8 + 4 * q.size) % 8) % 8 +
                8 * bs.chunks.length + 8 + 1 := rfl
          omega
        omega

/-- C9: `SerializingToBuffer` stores the two-byte symbol count at offset 0
before any capacity check: the first event is always that store, and with a
budget of one byte the function is not rejected before the store — the two
bytes at offsets 0 and 1 overrun the one-byte budget, and only the following
check returns the error. -/
theorem claim_C9_unchecked_first_store (bs : FSEBitStream) (q : FSEQuant) (L : ℕ) :
    serializingToBuffer bs q L 1 = ([(0, 2, q.size % 2 ^ 16)], none) ∧
    ∀ M, (serializingToBuffer bs q L M).1.head? = some (0, 2, q.size % 2 ^ 16) := by
  constructor
  · have h1 : serOne 1 2 (L % 2 ^ 16) 2 = ([], none) := by
      unfold serOne
      rw [if_pos (by norm_num)]
    simp only [serializingToBuffer, serSeq_some, h1, serSeq_none]
    simp
  · intro M
    simp only [serializingToBuffer, serSeq_some]
    simp

/-- C8: the compression pipeline is deterministic — equal inputs (symbol
sequence, histogram, centroids, constants, budget) produce equal serialized
buffers and statuses.  The embedding is a pure function of its inputs: the
source pipeline keeps no state across calls and uses no randomness. -/
theorem claim_C8_determinism (mtl1 mtl2 ms1 ms2 : ℕ) (s1 s2 f1 f2 c1 c2 : List ℕ)
    (M1 M2 : ℕ) (h1 : mtl1 = mtl2) (h2 : ms1 = ms2) (h3 : s1 = s2) (h4 : f1 = f2)
    (h5 : c1 = c2) (h6 : M1 = M2) :
    compressCore mtl1 ms1 s1 f1 c1 M1 = compressCore mtl2 ms2 s2 f2 c2 M2 := by
  subst h1
  subst h2
  subst h3
  subst h4
  subst h5
  subst h6
  rfl

/-- Witness for C8 on a concrete run. -/
theorem claim_C8_witness :
    compressCore 2 2 [0, 1, 0] [2, 1] [9, 9] 41 =
      compressCore 2 2 [0, 1, 0] [2, 1] [9, 9] 41 :=
  claim_C8_determinism 2 2 2 2 [0, 1, 0] [0, 1, 0] [2, 1] [2, 1] [9, 9] [9, 9] 41 41
    rfl rfl rfl rfl rfl rfl

end FSEVerify
